import Mathlib

/-!
EC-PCB `packet.h`: a shallow embedding of the `Packet` class.

The class `Packet` of `src/ECcomm_adapter/packet.h` is embedded as a record of
natural numbers and booleans together with one Lean function per member
function.  Machine integers are natural numbers reduced explicitly:

* `byte` (8 bit) fields and locals are reduced `% 256` after every update;
* `unsigned long` (32 bit on the AVR target) values are reduced `% 2^32`;
* `unsigned` (16 bit) counters of `Send` are reduced `% 2^16`.

A shift whose count reaches the width of the shifted type is taken as the
mathematical shift followed by the reduction (so `1UL << 32` is `0` and
`data >> 32` is `0`), which is what the shift loops of the 8-bit target compute.

The input register `PIND` is a stream `Nat → Nat` of successive register
values: every evaluation of `PIND` in the source consumes the next sample.
The loops that poll the line are not bounded by the source in every case, so
`Read` and `Send` take a fuel argument and answer `none` when it runs out.
The output of `SendBit` is recorded as the list of bit values sent.
-/

namespace EC

/-! ## Constants of the header -/

/-- The constant `maxloops` (line 26). -/
def maxloops : Nat := 2000

/-- The constant `waitloops` (line 27). -/
def waitloops : Nat := 15000

/-- Width of `unsigned long` on the target. -/
def ulongMod : Nat := 2 ^ 32

/-- Width of `unsigned` on the target. -/
def uintMod : Nat := 2 ^ 16

/-! ## The Arduino bit macros -/

/-- Modelled from the spec: the macro `bitRead` of `Arduino.h`, which is not
part of the sources: `bitRead(value, bit)` is `((value) >> (bit)) & 0x01`. -/
def bitRead (value bit : Nat) : Bool := ((value >>> bit) &&& 1) != 0

/-- Modelled from the spec: the macro `bitWrite` of `Arduino.h`, which is not
part of the sources: `bitWrite(value, bit, b)` is `value |= (1UL << bit)` when
`b` holds and `value &= ~(1UL << bit)` otherwise, on 32-bit operands.  The
caller reduces the result to the width of the variable written. -/
def bitWrite (value bit : Nat) (b : Bool) : Nat :=
  if b then value ||| ((1 <<< bit) % ulongMod)
  else value &&& (ulongMod - 1 - (1 <<< bit) % ulongMod)

/-! ## The object state -/

/-- The data members of `Packet` (lines 31-40). -/
@[ext]
structure Packet where
  header : Nat
  data : Nat
  parity : Bool
  pin_in : Nat
  pin_out : Nat
  counter : Nat
  num_bits : Nat
  was_sent : Bool
  incomplete : Bool
  deriving DecidableEq, Repr

/-- The ranges of the machine types of the members: `byte` members are below
`256`, the `unsigned long` member `data` is below `2^32`. -/
def Packet.InRange (p : Packet) : Prop :=
  p.header < 256 ∧ p.data < 2 ^ 32 ∧ p.pin_in < 256 ∧ p.pin_out < 256 ∧
    p.counter < 256 ∧ p.num_bits < 256

instance (p : Packet) : Decidable p.InRange := by
  unfold Packet.InRange; infer_instance

/-- The constructor `Packet(reg_rx, reg_tx)` (lines 129-141). -/
def Packet.new (reg_rx reg_tx : Nat) : Packet :=
  { header := 0, data := 0, parity := false, pin_in := reg_rx, pin_out := reg_tx,
    counter := 0, num_bits := 0, was_sent := false, incomplete := false }

/-! ## Private member functions -/

/-- The member `AddBit` (lines 42-49). -/
def AddBit (p : Packet) (bit_val : Bool) : Packet :=
  if p.counter < 8 then
    { p with header := bitWrite p.header p.counter bit_val % 256,
             counter := (p.counter + 1) % 256 }
  else
    { p with data := bitWrite p.data (p.counter - 8) bit_val % ulongMod,
             counter := (p.counter + 1) % 256 }

/-- The member `CalcParity` (lines 81-89). -/
def CalcParity (p : Packet) : Bool :=
  let val := bitRead p.header 0
  let val := (List.range' 1 7).foldl (fun v i => xor v (bitRead p.header i)) val
  (List.range p.num_bits).foldl (fun v i => xor v (bitRead p.data i)) val

/-- The member `ErrorCheck` (lines 51-79).  The recursive call is made from
the odd branch only, after `num_bits` has become even. -/
def ErrorCheck (p : Packet) : Packet :=
  let calc_parity := CalcParity p
  if p.num_bits % 2 = 0 then
    if calc_parity != p.parity then
      { p with data := ((p.data <<< 2) + (p.header >>> 6)) % ulongMod,
               header := ((p.header <<< 2) + 1) % 256,
               num_bits := (p.num_bits + 2) % 256,
               incomplete := true }
    else if p.header = 0 then
      { p with data := ((p.data <<< 2) + (p.header >>> 6)) % ulongMod,
               header := ((p.header <<< 2) + 3) % 256,
               num_bits := (p.num_bits + 2) % 256,
               incomplete := true }
    else p
  else
    let p1 := { p with data := ((p.data <<< 1) + (p.header >>> 7)) % ulongMod,
                       header := (p.header <<< 1) % 256,
                       num_bits := (p.num_bits + 1) % 256 }
    let p2 := if calc_parity != p.parity then { p1 with header := (p1.header + 1) % 256 }
              else ErrorCheck p1
    { p2 with incomplete := true }
termination_by p.num_bits % 2
decreasing_by
  simp_wf
  omega

/-- The member `SendBit` (lines 106-119): one pulse on the output line, long
for `true` and short for `false`.  The wire is recorded as the list of the bit
values sent, oldest first. -/
def SendBit (wire : List Bool) (val : Bool) : List Bool := wire ++ [val]

/-! ## Polling the input line -/

/-- The test `PIND & pin_in` at sample `t` of the register stream. -/
def lineHigh (pind : Nat → Nat) (pin_in t : Nat) : Bool := (pind t &&& pin_in) != 0

/-- The frame tail of `Read` (lines 170-177): bit count, parity extraction,
`ErrorCheck`, and the `was_sent` flag. -/
def readFinish (p : Packet) : Packet :=
  let p := { p with num_bits := if p.counter > 8 then p.counter - 9 else 0 }
  let p := { p with parity := bitRead p.data p.num_bits }
  let p := { p with data := bitWrite p.data p.num_bits false % ulongMod }
  let p := ErrorCheck p
  { p with was_sent := true }

/-- The loop of line 148, `while ((PIND & pin_in) && (loops++ < maxloops));`.
Answers the next sample index and the value of `loops` at exit. -/
def readStart (pind : Nat → Nat) (pin_in : Nat) : Nat → Nat → Nat → Option (Nat × Nat)
  | 0, _, _ => none
  | fuel + 1, t, loops =>
    if lineHigh pind pin_in t then
      if loops < maxloops then readStart pind pin_in fuel (t + 1) ((loops + 1) % ulongMod)
      else some (t + 1, (loops + 1) % ulongMod)
    else some (t + 1, loops)

/-- The loop of lines 156-159, waiting for the next pulse or for the end of
the frame.  Answers the next sample index, `loops` and `keep_reading`. -/
def readGap (pind : Nat → Nat) (pin_in : Nat) :
    Nat → Nat → Nat → Bool → Option (Nat × Nat × Bool)
  | 0, _, _, _ => none
  | fuel + 1, t, loops, keep_reading =>
    if !(lineHigh pind pin_in t) && keep_reading then
      readGap pind pin_in fuel (t + 1) ((loops + 1) % ulongMod)
        (if loops > maxloops then false else keep_reading)
    else some (t + 1, loops, keep_reading)

/-- The loop of lines 162-163, `while (PIND & pin_in) loops++;`, measuring a
pulse.  Answers the next sample index and `loops`. -/
def readPulse (pind : Nat → Nat) (pin_in : Nat) : Nat → Nat → Nat → Option (Nat × Nat)
  | 0, _, _ => none
  | fuel + 1, t, loops =>
    if lineHigh pind pin_in t then readPulse pind pin_in fuel (t + 1) ((loops + 1) % ulongMod)
    else some (t + 1, loops)

/-- The loop of lines 154-169, `while (keep_reading)`. -/
def readBits (pind : Nat → Nat) :
    Nat → Nat → Nat → Bool → Packet → Option (Nat × Packet)
  | 0, _, _, _, _ => none
  | fuel + 1, t, loops, keep_reading, p =>
    if keep_reading then
      match readGap pind p.pin_in fuel t loops keep_reading with
      | none => none
      | some (t1, loops1, keep1) =>
        if keep1 then
          match readPulse pind p.pin_in fuel t1 0 with
          | none => none
          | some (t2, loops2) =>
            readBits pind fuel t2 loops2 keep1
              (if loops2 < 500 then AddBit p false else AddBit p true)
        else readBits pind fuel t1 loops1 keep1 p
    else some (t, p)

/-- The member `Read` (lines 143-178).  Answers the number of samples of
`PIND` taken and the packet, or `none` when the fuel does not reach the
return. -/
def Read (fuel : Nat) (pind : Nat → Nat) (p : Packet) : Option (Nat × Packet) :=
  match readStart pind p.pin_in fuel 0 0 with
  | none => none
  | some (t, loops) =>
    if loops > maxloops then some (t, p)
    else
      match readBits pind fuel t loops true p with
      | none => none
      | some (t1, p1) => some (t1, readFinish p1)

/-- The bus-idle wait of `Send` (lines 184-196).  Answers whether the wait
ended with an idle bus (`true`) or with the early return (`false`), and the
next sample index. -/
def sendWait (pind : Nat → Nat) (pin_in : Nat) :
    Nat → Nat → Nat → Nat → Option (Bool × Nat)
  | 0, _, _, _ => none
  | fuel + 1, t, loops, tries =>
    if loops < waitloops then
      let loops1 := (loops + 1) % uintMod
      let high := lineHigh pind pin_in t
      let loops2 := if high then 0 else loops1
      let tries1 := if high then (tries + 1) % uintMod else 0
      if tries1 > maxloops then some (false, t + 1)
      else sendWait pind pin_in fuel (t + 1) loops2 tries1
    else some (true, t)

/-- The bits `Send` puts on the wire once the bus is idle (lines 197-202):
start bit, header bits 0..7, data bits 0..num_bits-1, parity bit. -/
def sendFrame (p : Packet) : List Bool :=
  let wire := SendBit [] true
  let wire := (List.range 8).foldl (fun w i => SendBit w (bitRead p.header i)) wire
  let wire := (List.range p.num_bits).foldl (fun w i => SendBit w (bitRead p.data i)) wire
  SendBit wire p.parity

/-- The member `Send()` (lines 180-205).  Answers the packet, the bits sent
and the number of samples of `PIND` taken, or `none` when the fuel does not
reach the return. -/
def Send (fuel : Nat) (pind : Nat → Nat) (p : Packet) : Option (Packet × List Bool × Nat) :=
  if p.num_bits ≠ 0 ∧ p.pin_out ≠ 0 then
    match sendWait pind p.pin_in fuel 0 0 0 with
    | none => none
    | some (false, t) => some (p, [], t)
    | some (true, t) => some ({ p with was_sent := true }, sendFrame p, t)
  else some (p, [], 0)

/-! ## Public setters and accessors -/

/-- The loop `while (data >> num_bits) num_bits += 2;` of both `Set`
overloads (lines 227-228 and 237-238). -/
def numBitsLoop (data : Nat) : Nat → Nat → Option Nat
  | 0, _ => none
  | fuel + 1, num_bits =>
    if data >>> num_bits ≠ 0 then numBitsLoop data fuel ((num_bits + 2) % 256)
    else some num_bits

/-- The common tail of both `Set` overloads: the `num_bits` loop started at 2
and the parity.  The byte `num_bits` steps through at most 128 values before
it repeats, so 128 rounds of the loop decide whether it ends: `none` means
that it does not. -/
def setTail (p : Packet) : Option Packet :=
  match numBitsLoop p.data 128 2 with
  | none => none
  | some n =>
    let p := { p with num_bits := n }
    some { p with parity := CalcParity p }

/-- The member `Set(priority, address, data1, data2, data3)` (lines 222-230). -/
def Set (p : Packet) (priority address data1 data2 data3 : Nat) : Option Packet :=
  setTail { p with header := ((address <<< 2) + (priority &&& 3)) % 256,
                   data := ((data3 <<< 16) % ulongMod + (data2 <<< 8) % ulongMod + data1)
                             % ulongMod }

/-- The member `Set(priority, address, longdata)` (lines 232-240). -/
def SetLong (p : Packet) (priority address longdata : Nat) : Option Packet :=
  setTail { p with header := ((address <<< 2) + (priority &&& 3)) % 256,
                   data := longdata &&& 16777215 }

/-- The member `Set(unique)` (lines 252-255).  The three arguments are
`unsigned long`, so the call resolves to the three-argument overload, whose
two `byte` parameters take the values reduced to 8 bits. -/
def SetUnique (p : Packet) (unique : Nat) : Option Packet :=
  SetLong p ((unique &&& 3) % 256) (((unique &&& 252) >>> 2) % 256) (unique >>> 8)

/-- The member `Priority` (lines 257-259). -/
def Priority (p : Packet) : Nat := p.header &&& 3

/-- The member `Address` (lines 261-263). -/
def Address (p : Packet) : Nat := p.header >>> 2

/-- The member `Byte` (lines 272-276). -/
def Byte (p : Packet) (i : Nat) : Nat := ((p.data >>> (i * 8)) &&& 255) % 256

/-- The member `Unique` (lines 278-281). -/
def Unique (p : Packet) : Nat := (p.header + (p.data <<< 8) % ulongMod) % ulongMod

/-- The member `Sent` (lines 215-220). -/
def Sent (p : Packet) : Bool := if p.was_sent then true else false

/-- The member `Incomplete` (lines 283-285). -/
def Incomplete (p : Packet) : Bool := p.incomplete

/-- The bits of a frame as `Read` takes them from the line, fed through
`AddBit` in arrival order. -/
def addBits (p : Packet) (bits : List Bool) : Packet := bits.foldl AddBit p

/-- Local decode of a received bit sequence: the bits go through `AddBit`
into a freshly constructed packet, then the frame tail of `Read` runs. -/
def decode (reg_rx reg_tx : Nat) (bits : List Bool) : Packet :=
  readFinish (addBits (Packet.new reg_rx reg_tx) bits)

/-! ## Auxiliary notions used in the statements and proofs -/

/-- The XOR of the `n` low bits of `v`. -/
def xorBits (v : Nat) : Nat → Bool
  | 0 => false
  | n + 1 => xor (xorBits v n) (v.testBit n)

/-- Header and payload read as one bit string, header in the 8 low bits. -/
def frameVal (p : Packet) : Nat := p.header + 256 * p.data

/-- Bit `i` of a received bit sequence, `false` past its end. -/
def bitAt (l : List Bool) (i : Nat) : Bool := l.getD i false

/-- The packet that `Set(1, 5, 0xAA, 0, 0)` leaves in an object constructed on
the pins 1 and 2: header 21, payload 170 on 8 bits, parity 1. -/
def samplePacket : Packet :=
  { header := 21, data := 170, parity := true, pin_in := 1, pin_out := 2,
    counter := 0, num_bits := 8, was_sent := false, incomplete := false }

/-- A state with an all-zero header, two payload bits and a stored parity bit
that differs from the computed one. -/
def zeroHeaderMismatch : Packet :=
  { header := 0, data := 1, parity := false, pin_in := 1, pin_out := 2,
    counter := 11, num_bits := 2, was_sent := false, incomplete := false }

/-- A state with an all-zero header and the largest even value of the byte
`num_bits`. -/
def zeroHeaderWrap : Packet :=
  { header := 0, data := 0, parity := false, pin_in := 1, pin_out := 2,
    counter := 0, num_bits := 254, was_sent := false, incomplete := false }

/-- A received frame of nine bits: header bits of the value 1, then one bit. -/
def nineBitFrame : List Bool :=
  [true, false, false, false, false, false, false, false, true]

/-- The input line reads low (idle) at the `len` samples from sample `n` on. -/
def IdleRun (pind : Nat → Nat) (pin_in n len : Nat) : Prop :=
  ∀ i, n ≤ i → i < n + len → lineHigh pind pin_in i = false

/-- The input line reads high (busy) at the `len` samples from sample `m` on. -/
def BusyRun (pind : Nat → Nat) (pin_in m len : Nat) : Prop :=
  ∀ i, m ≤ i → i < m + len → lineHigh pind pin_in i = true

/-- The bit count `n` is the least even count, at least 2, with
`data >> n == 0`. -/
def MinimalBitCount (data n : Nat) : Prop :=
  n % 2 = 0 ∧ 2 ≤ n ∧ data >>> n = 0 ∧ ∀ m, m % 2 = 0 → 2 ≤ m → data >>> m = 0 → n ≤ m

/-- The even branch of `ErrorCheck` (lines 56-68), which does not recurse. -/
def evenCheck (p : Packet) : Packet :=
  if CalcParity p != p.parity then
    { p with data := ((p.data <<< 2) + (p.header >>> 6)) % ulongMod,
             header := ((p.header <<< 2) + 1) % 256,
             num_bits := (p.num_bits + 2) % 256,
             incomplete := true }
  else if p.header = 0 then
    { p with data := ((p.data <<< 2) + (p.header >>> 6)) % ulongMod,
             header := ((p.header <<< 2) + 3) % 256,
             num_bits := (p.num_bits + 2) % 256,
             incomplete := true }
  else p

/-- The one-bit shift that opens the odd branch of `ErrorCheck` (lines 70-72). -/
def oddShift (p : Packet) : Packet :=
  { p with data := ((p.data <<< 1) + (p.header >>> 7)) % ulongMod,
           header := (p.header <<< 1) % 256,
           num_bits := (p.num_bits + 1) % 256 }

/-! ## Further members and notions for the later claims -/

/-- The member `Send(priority, address, data1, data2, data3)` (lines 207-213):
`Set` and `Send()` run only when `pin_out` is not zero. -/
def SendBytes (fuel : Nat) (pind : Nat → Nat) (p : Packet)
    (priority address data1 data2 data3 : Nat) : Option (Packet × List Bool × Nat) :=
  if p.pin_out ≠ 0 then
    match Set p priority address data1 data2 data3 with
    | none => none
    | some q => Send fuel pind q
  else some (p, [], 0)

/-- The composition the specification names for the five-argument `Send`:
`Set(priority, address, data1, data2, data3)` followed by `Send()`. -/
def setThenSend (fuel : Nat) (pind : Nat → Nat) (p : Packet)
    (priority address data1 data2 data3 : Nat) : Option (Packet × List Bool × Nat) :=
  match Set p priority address data1 data2 data3 with
  | none => none
  | some q => Send fuel pind q

/-- The member `BitRange` (lines 265-270).  `value` is a byte; the loop index
starts at `last - first + 1` converted to a byte and clears the bits from
there up to bit 7, each with `value &= ~(1 << i)` on 16-bit `int` operands. -/
def BitRange (p : Packet) (first last : Nat) : Nat :=
  let value := (p.data >>> first) % 256
  let start := (last + 256 - first + 1) % 256
  (List.range' start (8 - start)).foldl
    (fun v i => (v &&& (65535 - (1 <<< i) % 65536)) % 256) value

/-- The part of the frame tail of `Read` that runs before `ErrorCheck`
(lines 170-173): bit count and parity extraction. -/
def readExtract (p : Packet) : Packet :=
  let p := { p with num_bits := if p.counter > 8 then p.counter - 9 else 0 }
  let p := { p with parity := bitRead p.data p.num_bits }
  { p with data := bitWrite p.data p.num_bits false % ulongMod }

/-- The member `ErrorCheck` (lines 51-79) with the depth of its activations
made explicit: `depth` activations may be open at once, and the answer is
`none` when one more would be needed. -/
def ErrorCheckDepth : Nat → Packet → Option Packet
  | 0, _ => none
  | depth + 1, p =>
    let calc_parity := CalcParity p
    if p.num_bits % 2 = 0 then
      if calc_parity != p.parity then
        some { p with data := ((p.data <<< 2) + (p.header >>> 6)) % ulongMod,
                      header := ((p.header <<< 2) + 1) % 256,
                      num_bits := (p.num_bits + 2) % 256,
                      incomplete := true }
      else if p.header = 0 then
        some { p with data := ((p.data <<< 2) + (p.header >>> 6)) % ulongMod,
                      header := ((p.header <<< 2) + 3) % 256,
                      num_bits := (p.num_bits + 2) % 256,
                      incomplete := true }
      else some p
    else
      let p1 := { p with data := ((p.data <<< 1) + (p.header >>> 7)) % ulongMod,
                         header := (p.header <<< 1) % 256,
                         num_bits := (p.num_bits + 1) % 256 }
      if calc_parity != p.parity then
        some { p1 with header := (p1.header + 1) % 256, incomplete := true }
      else
        match ErrorCheckDepth depth p1 with
        | none => none
        | some p2 => some { p2 with incomplete := true }

/-- The even-count correction step as the specification words it: the two
low-order bits of the header go to the two payload positions just above the
`num_bits` payload bits, the header is shifted left by two and gets the new
low bits `low` (1 for 01, 3 for 11), the bit count grows by 2 and the
incomplete flag is set. -/
def evenStepSpec (p : Packet) (low : Nat) : Packet :=
  { p with data := (p.data + ((p.header &&& 3) <<< p.num_bits)) % ulongMod,
           header := ((p.header <<< 2) + low) % 256,
           num_bits := (p.num_bits + 2) % 256,
           incomplete := true }

/-- A state with even bit count and a parity mismatch whose header has
different low-order and high-order bit pairs: header 10000001, payload 01. -/
def mismatchPacket : Packet :=
  { header := 129, data := 1, parity := false, pin_in := 1, pin_out := 2,
    counter := 11, num_bits := 2, was_sent := false, incomplete := false }

/-- A state with odd bit count: header 00000101, payload 011 on three bits
and a stored parity bit equal to the computed one. -/
def oddPacket : Packet :=
  { header := 5, data := 3, parity := false, pin_in := 1, pin_out := 2,
    counter := 12, num_bits := 3, was_sent := false, incomplete := false }

/-- A received sequence of 41 bits, all 1: one bit more than header and a
32-bit payload hold. -/
def longFrame : List Bool := List.replicate 41 true

/-- A register stream that reads 0 at sample 0 and 1 ever after: one idle
sample, then a pulse that never ends. -/
def stuckHighLine (t : Nat) : Nat := if t = 0 then 0 else 1

/-- A register stream that alternates: 0 at the even samples, 1 at the odd
ones. -/
def alternatingLine (t : Nat) : Nat := t % 2

/-! ## Bits and parity -/

theorem bitRead_eq_testBit (v i : Nat) : bitRead v i = v.testBit i := by
  simp [bitRead, Nat.testBit, Nat.and_comm]

theorem foldl_xor_range (d : Nat) (a : Bool) (n : Nat) :
    (List.range n).foldl (fun v i => xor v (bitRead d i)) a = xor a (xorBits d n) := by
  induction n with
  | zero => simp [xorBits]
  | succ n ih =>
    rw [List.range_succ, List.foldl_append, ih]
    simp [xorBits, bitRead_eq_testBit]

theorem CalcParity_eq (p : Packet) :
    CalcParity p = xor (xorBits p.header 8) (xorBits p.data p.num_bits) := by
  unfold CalcParity
  simp only [foldl_xor_range]
  have h : List.range' 1 7 = [1, 2, 3, 4, 5, 6, 7] := by decide
  rw [h]
  simp [xorBits, bitRead_eq_testBit]

theorem xorBits_congr {a b : Nat} (n : Nat)
    (h : ∀ i, i < n → a.testBit i = b.testBit i) : xorBits a n = xorBits b n := by
  induction n with
  | zero => rfl
  | succ n ih =>
    simp only [xorBits]
    rw [ih (fun i hi => h i (by omega)), h n (by omega)]

theorem xorBits_mod (u : Nat) {n m : Nat} (h : n ≤ m) :
    xorBits (u % 2 ^ m) n = xorBits u n := by
  apply xorBits_congr
  intro i hi
  rw [Nat.testBit_mod_two_pow]
  simp [show i < m by omega]

theorem xorBits_double (u : Nat) (b : Bool) (n : Nat) :
    xorBits (2 * u + (if b then 1 else 0)) (n + 1) = xor b (xorBits u n) := by
  induction n with
  | zero =>
    cases b <;> simp [xorBits, Nat.testBit_zero]
    omega
  | succ n ih =>
    rw [xorBits, ih, xorBits, Nat.testBit_succ]
    have : (2 * u + (if b then 1 else 0)) / 2 = u := by
      cases b <;> simp
      omega
    rw [this, Bool.xor_assoc]

theorem xorBits_add_mul {h k : Nat} (hk : h < 2 ^ k) (d m : Nat) :
    xorBits (h + 2 ^ k * d) (k + m) = xor (xorBits h k) (xorBits d m) := by
  induction m with
  | zero =>
    simp only [xorBits, Nat.add_zero, Bool.xor_false]
    apply xorBits_congr
    intro i hi
    rw [Nat.add_comm, Nat.testBit_mul_pow_two_add _ hk]
    simp [hi]
  | succ m ih =>
    rw [← Nat.add_assoc, xorBits, ih, xorBits, Nat.add_comm h,
      Nat.testBit_mul_pow_two_add _ hk]
    simp [Bool.xor_assoc]

theorem CalcParity_frameVal (p : Packet) (hh : p.header < 256) :
    CalcParity p = xorBits (frameVal p) (8 + p.num_bits) := by
  rw [CalcParity_eq, frameVal]
  exact (xorBits_add_mul (k := 8) (by simpa using hh) p.data p.num_bits).symm

theorem ErrorCheck_eq (p : Packet) :
    ErrorCheck p =
      if p.num_bits % 2 = 0 then evenCheck p
      else
        { (if CalcParity p != p.parity then
             { oddShift p with header := ((oddShift p).header + 1) % 256 }
           else evenCheck (oddShift p)) with incomplete := true } := by
  rw [ErrorCheck]
  by_cases h : p.num_bits % 2 = 0
  · simp only [h, if_true, evenCheck]
  · simp only [h, if_false]
    by_cases hp : (CalcParity p != p.parity) = true
    · simp only [hp, if_true, oddShift]
    · simp only [hp, if_false]
      rw [ErrorCheck]
      have h2 : (p.num_bits + 1) % 256 % 2 = 0 := by omega
      simp only [h2, if_true, evenCheck, oddShift]

/-! ## Parity through `ErrorCheck` -/

theorem xorBits_shift_in (u : Nat) (b : Bool) {n : Nat} (hn : n + 1 ≤ 40) :
    xorBits ((2 * u + (if b then 1 else 0)) % 2 ^ 40) (n + 1) = xor b (xorBits u n) := by
  rw [xorBits_mod _ hn, xorBits_double]

theorem CalcParity_congr {p q : Packet} (h1 : q.header = p.header) (h2 : q.data = p.data)
    (h3 : q.num_bits = p.num_bits) : CalcParity q = CalcParity p := by
  rw [CalcParity_eq, CalcParity_eq, h1, h2, h3]

theorem oddShift_header_lt (p : Packet) : (oddShift p).header < 256 := by
  simp only [oddShift]; omega

theorem evenCheck_header_lt (p : Packet) (hh : p.header < 256) :
    (evenCheck p).header < 256 := by
  unfold evenCheck
  split_ifs
  · show ((p.header <<< 2) + 1) % 256 < 256
    omega
  · show ((p.header <<< 2) + 3) % 256 < 256
    omega
  · exact hh

theorem evenCheck_parity_field (p : Packet) : (evenCheck p).parity = p.parity := by
  unfold evenCheck
  split_ifs <;> rfl

theorem frameVal_oddShift (p : Packet) :
    frameVal (oddShift p) = (2 * frameVal p + 0) % 2 ^ 40 := by
  simp only [oddShift, frameVal, ulongMod, Nat.shiftLeft_eq, Nat.shiftRight_eq_div_pow]
  omega

theorem CalcParity_oddShift (p : Packet) (hh : p.header < 256) (hn : p.num_bits ≤ 31) :
    CalcParity (oddShift p) = CalcParity p := by
  rw [CalcParity_frameVal _ (oddShift_header_lt p), frameVal_oddShift p,
    CalcParity_frameVal p hh]
  have h1 : (oddShift p).num_bits = p.num_bits + 1 := by
    simp only [oddShift]; omega
  rw [h1, ← Nat.add_assoc]
  have := xorBits_shift_in (frameVal p) false (n := 8 + p.num_bits) (by omega)
  simpa using this

theorem CalcParity_oddShift_succ (p : Packet) (hh : p.header < 256) (hn : p.num_bits ≤ 31) :
    CalcParity { oddShift p with header := ((oddShift p).header + 1) % 256 }
      = !(CalcParity p) := by
  rw [CalcParity_frameVal _ (by simp only; omega), CalcParity_frameVal p hh]
  have h1 : (oddShift p).num_bits = p.num_bits + 1 := by
    simp only [oddShift]; omega
  have h2 : frameVal { oddShift p with header := ((oddShift p).header + 1) % 256 }
      = (2 * frameVal p + 1) % 2 ^ 40 := by
    simp only [oddShift, frameVal, ulongMod, Nat.shiftLeft_eq, Nat.shiftRight_eq_div_pow]
    omega
  rw [h2]
  simp only [h1, ← Nat.add_assoc]
  have := xorBits_shift_in (frameVal p) true (n := 8 + p.num_bits) (by omega)
  simpa using this

theorem CalcParity_evenCheck (p : Packet) (hh : p.header < 256) (hn : p.num_bits ≤ 30) :
    CalcParity (evenCheck p) = p.parity := by
  unfold evenCheck
  split_ifs with hm hz
  · rw [CalcParity_frameVal _ (by simp only; omega)]
    have h2 : frameVal { p with data := ((p.data <<< 2) + (p.header >>> 6)) % ulongMod,
                                header := ((p.header <<< 2) + 1) % 256,
                                num_bits := (p.num_bits + 2) % 256,
                                incomplete := true }
        = (2 * (2 * frameVal p + 0) + 1) % 2 ^ 40 := by
      simp only [frameVal, ulongMod, Nat.shiftLeft_eq, Nat.shiftRight_eq_div_pow]
      omega
    rw [h2]
    have h3 : 8 + (p.num_bits + 2) % 256 = (8 + p.num_bits + 1) + 1 := by omega
    simp only [h3]
    have a := xorBits_shift_in (2 * frameVal p + 0) true (n := 8 + p.num_bits + 1) (by omega)
    have b := xorBits_double (frameVal p) false (8 + p.num_bits)
    simp only [Bool.false_eq_true, if_false, if_true] at a b
    rw [a, b, ← CalcParity_frameVal p hh]
    revert hm
    cases CalcParity p <;> cases p.parity <;> simp
  · rw [CalcParity_frameVal _ (by simp only; omega)]
    have h2 : frameVal { p with data := ((p.data <<< 2) + (p.header >>> 6)) % ulongMod,
                                header := ((p.header <<< 2) + 3) % 256,
                                num_bits := (p.num_bits + 2) % 256,
                                incomplete := true }
        = (2 * (2 * frameVal p + 1) + 1) % 2 ^ 40 := by
      simp only [frameVal, ulongMod, Nat.shiftLeft_eq, Nat.shiftRight_eq_div_pow]
      omega
    rw [h2]
    have h3 : 8 + (p.num_bits + 2) % 256 = (8 + p.num_bits + 1) + 1 := by omega
    simp only [h3]
    have a := xorBits_shift_in (2 * frameVal p + 1) true (n := 8 + p.num_bits + 1) (by omega)
    have b := xorBits_double (frameVal p) true (8 + p.num_bits)
    simp only [if_true] at a b
    rw [a, b, ← CalcParity_frameVal p hh]
    revert hm
    cases CalcParity p <;> cases p.parity <;> simp
  · revert hm
    cases CalcParity p <;> cases p.parity <;> simp

theorem ErrorCheck_parity (p : Packet) (hh : p.header < 256) (hn : p.num_bits ≤ 29) :
    CalcParity (ErrorCheck p) = (ErrorCheck p).parity := by
  rw [ErrorCheck_eq]
  split_ifs with he hm
  · rw [CalcParity_evenCheck p hh (by omega), evenCheck_parity_field]
  · have h := CalcParity_oddShift_succ p hh (by omega)
    have e : CalcParity
        { ({ oddShift p with header := ((oddShift p).header + 1) % 256 } : Packet) with
          incomplete := true }
        = CalcParity { oddShift p with header := ((oddShift p).header + 1) % 256 } :=
      CalcParity_congr rfl rfl rfl
    rw [e, h]
    simp only [oddShift]
    revert hm
    cases CalcParity p <;> cases p.parity <;> simp
  · have h1 : (oddShift p).num_bits ≤ 30 := by simp only [oddShift]; omega
    have h2 := CalcParity_evenCheck (oddShift p) (oddShift_header_lt p) h1
    have e : CalcParity { evenCheck (oddShift p) with incomplete := true }
        = CalcParity (evenCheck (oddShift p)) := CalcParity_congr rfl rfl rfl
    rw [e, h2]
    show (oddShift p).parity = (evenCheck (oddShift p)).parity
    rw [evenCheck_parity_field]

/-! ## Frame assembly -/

theorem bitAt_of_le (l : List Bool) (i : Nat) (h : l.length ≤ i) : bitAt l i = false :=
  List.getD_eq_default _ _ h

theorem bitAt_snoc (l : List Bool) (b : Bool) (i : Nat) :
    bitAt (l ++ [b]) i
      = if i < l.length then bitAt l i else if i = l.length then b else false := by
  unfold bitAt
  split_ifs with h1 h2
  · exact List.getD_append _ _ _ _ h1
  · subst h2
    rw [List.getD_append_right _ _ _ _ (le_refl _)]
    simp
  · rw [List.getD_append_right _ _ _ _ (by omega)]
    rw [List.getD_eq_default]
    simp
    omega

theorem bitWrite_testBit (v k i : Nat) (b : Bool) (hv : v < 2 ^ 32) :
    (bitWrite v k b % 2 ^ 32).testBit i = if i = k ∧ k < 32 then b else v.testBit i := by
  unfold bitWrite ulongMod
  have hx : (1 <<< k) % 2 ^ 32 < 2 ^ 32 := Nat.mod_lt _ (by norm_num)
  have e : 2 ^ 32 - 1 - (1 <<< k) % 2 ^ 32 = 2 ^ 32 - ((1 <<< k) % 2 ^ 32 + 1) := by omega
  have hv2 : ∀ j, 32 ≤ j → v.testBit j = false := fun j hj =>
    Nat.testBit_lt_two_pow (lt_of_lt_of_le hv (Nat.pow_le_pow_right (by norm_num) hj))
  rw [Nat.testBit_mod_two_pow]
  cases b
  · simp only [Bool.false_eq_true, if_false]
    rw [e, Nat.testBit_and, Nat.testBit_two_pow_sub_succ hx, Nat.testBit_mod_two_pow,
      Nat.one_shiftLeft, Nat.testBit_two_pow]
    by_cases h32 : i < 32
    · by_cases hk : k = i
      · subst hk; simp [h32]
      · have : ¬ i = k := fun h => hk h.symm
        simp [h32, hk, this]
    · have := hv2 i (by omega)
      simp [h32, this]
  · simp only [if_true]
    rw [Nat.testBit_or, Nat.testBit_mod_two_pow, Nat.one_shiftLeft, Nat.testBit_two_pow]
    by_cases h32 : i < 32
    · by_cases hk : k = i
      · subst hk; simp [h32]
      · have : ¬ i = k := fun h => hk h.symm
        simp [h32, hk, this]
    · have := hv2 i (by omega)
      simp [h32, this]
      omega

theorem bitWrite_testBit_byte (v k i : Nat) (b : Bool) (hv : v < 256) (hk : k < 8) :
    (bitWrite v k b % 256).testBit i = if i = k then b else v.testBit i := by
  have h1 : bitWrite v k b % 256 = (bitWrite v k b % 2 ^ 32) % 2 ^ 8 := by
    norm_num
  have hv32 : v < 2 ^ 32 := by omega
  rw [h1, Nat.testBit_mod_two_pow, bitWrite_testBit v k i b hv32]
  by_cases h8 : i < 8
  · have : k < 32 := by omega
    simp [h8, this]
  · have hvi : v.testBit i = false :=
      Nat.testBit_lt_two_pow (lt_of_lt_of_le hv (by
        calc 256 = 2 ^ 8 := by norm_num
          _ ≤ 2 ^ i := Nat.pow_le_pow_right (by norm_num) (by omega)))
    have : ¬ i = k := by omega
    simp [h8, hvi, this]

theorem addBits_snoc (p : Packet) (l : List Bool) (b : Bool) :
    addBits p (l ++ [b]) = AddBit (addBits p l) b := by
  simp [addBits, List.foldl_append]

theorem AddBit_fixed (p : Packet) (b : Bool) :
    (AddBit p b).parity = p.parity ∧ (AddBit p b).pin_in = p.pin_in ∧
    (AddBit p b).pin_out = p.pin_out ∧ (AddBit p b).num_bits = p.num_bits ∧
    (AddBit p b).was_sent = p.was_sent ∧ (AddBit p b).incomplete = p.incomplete := by
  unfold AddBit
  split_ifs <;> simp

theorem addBits_fixed (p : Packet) (l : List Bool) :
    (addBits p l).parity = p.parity ∧ (addBits p l).pin_in = p.pin_in ∧
    (addBits p l).pin_out = p.pin_out ∧ (addBits p l).num_bits = p.num_bits ∧
    (addBits p l).was_sent = p.was_sent ∧ (addBits p l).incomplete = p.incomplete := by
  induction l using List.reverseRecOn with
  | nil => simp [addBits]
  | append_singleton l b ih =>
    rw [addBits_snoc]
    obtain ⟨a1, a2, a3, a4, a5, a6⟩ := AddBit_fixed (addBits p l) b
    obtain ⟨b1, b2, b3, b4, b5, b6⟩ := ih
    exact ⟨a1.trans b1, a2.trans b2, a3.trans b3, a4.trans b4, a5.trans b5, a6.trans b6⟩

/-- Shape of a freshly constructed packet after `AddBit` has taken the bits of
`l` (at most 40): the counter, and every bit of header and payload. -/
theorem addBits_new (rx tx : Nat) (l : List Bool) (hl : l.length ≤ 40) :
    (addBits (Packet.new rx tx) l).counter = l.length ∧
    (addBits (Packet.new rx tx) l).header < 256 ∧
    (addBits (Packet.new rx tx) l).data < 2 ^ 32 ∧
    (∀ i, (addBits (Packet.new rx tx) l).header.testBit i
        = (decide (i < 8) && bitAt l i)) ∧
    (∀ j, (addBits (Packet.new rx tx) l).data.testBit j = bitAt l (j + 8)) := by
  induction l using List.reverseRecOn with
  | nil => simp [addBits, Packet.new, bitAt]
  | append_singleton l b ih =>
    have hl2 : l.length ≤ 39 := by simpa using hl
    obtain ⟨hc, hh, hd, hhb, hdb⟩ := ih (by omega)
    rw [addBits_snoc]
    generalize addBits (Packet.new rx tx) l = q at hc hh hd hhb hdb
    unfold AddBit
    by_cases h8 : q.counter < 8
    · simp only [h8, if_true, List.length_append, List.length_singleton]
      refine ⟨by omega, by omega, hd, ?_, ?_⟩
      · intro i
        rw [bitWrite_testBit_byte _ _ _ _ hh h8, bitAt_snoc, hhb, hc]
        by_cases c1 : i < l.length
        · have : ¬ i = l.length := by omega
          simp [c1, this]
        · by_cases c2 : i = l.length
          · have : i < 8 := by omega
            simp [c2, this]
            omega
          · have : bitAt l i = false := bitAt_of_le _ _ (by omega)
            simp [c1, c2, this]
      · intro j
        rw [hdb, bitAt_snoc]
        have : bitAt l (j + 8) = false := bitAt_of_le _ _ (by omega)
        have c1 : ¬ j + 8 < l.length := by omega
        have c2 : ¬ j + 8 = l.length := by omega
        simp [c1, c2, this]
    · simp only [h8, if_false, List.length_append, List.length_singleton]
      refine ⟨by omega, hh, Nat.mod_lt _ (by norm_num [ulongMod]), ?_, ?_⟩
      · intro i
        rw [hhb, bitAt_snoc]
        by_cases c0 : i < 8
        · have : i < l.length := by omega
          simp [this]
        · simp [c0]
      · intro j
        show (bitWrite q.data (q.counter - 8) b % 2 ^ 32).testBit j = _
        rw [bitWrite_testBit _ _ _ _ hd, bitAt_snoc, hdb, hc]
        by_cases c1 : j + 8 < l.length
        · have : ¬ (j = l.length - 8 ∧ l.length - 8 < 32) := by omega
          simp [c1, this]
        · by_cases c2 : j + 8 = l.length
          · have : j = l.length - 8 ∧ l.length - 8 < 32 := by omega
            rw [if_pos this, if_neg c1, if_pos c2]
          · have e : bitAt l (j + 8) = false := bitAt_of_le _ _ (by omega)
            have : ¬ (j = l.length - 8 ∧ l.length - 8 < 32) := by omega
            simp [c1, c2, this, e]

/-! ## The wire format of `Send` and its local decode -/

theorem bitAt_map_range_append (f : Nat → Bool) (m : Nat) (rest : List Bool) (i : Nat) :
    bitAt ((List.range m).map f ++ rest) i = if i < m then f i else bitAt rest (i - m) := by
  unfold bitAt
  split_ifs with h
  · rw [List.getD_append _ _ _ _ (by simpa using h)]
    rw [List.getD_eq_getElem _ _ (by simpa using h)]
    simp
  · rw [List.getD_append_right _ _ _ _ (by simpa using h)]
    simp

theorem bitAt_singleton (b : Bool) (i : Nat) : bitAt [b] i = if i = 0 then b else false := by
  unfold bitAt
  cases i <;> simp

theorem foldl_SendBit (f : Nat → Bool) (l : List Nat) (w : List Bool) :
    l.foldl (fun w i => SendBit w (f i)) w = w ++ l.map f := by
  induction l generalizing w with
  | nil => simp
  | cons a l ih =>
    rw [List.foldl_cons, ih]
    simp [SendBit]

theorem sendFrame_eq (p : Packet) :
    sendFrame p
      = true :: ((List.range 8).map (bitRead p.header)
          ++ ((List.range p.num_bits).map (bitRead p.data) ++ [p.parity])) := by
  unfold sendFrame
  simp only [foldl_SendBit]
  simp [SendBit]

theorem testBit_of_lt_of_le {v n i : Nat} (hv : v < 2 ^ n) (hi : n ≤ i) :
    v.testBit i = false :=
  Nat.testBit_lt_two_pow (lt_of_lt_of_le hv (Nat.pow_le_pow_right (by norm_num) hi))

/-- A frame as `Send` writes it, read back by the local decode: when the
header is not zero, the bit count is even and the stored parity is the
computed one, the decode accepts the frame as it stands. -/
theorem decode_sendFrame (p : Packet) (rx tx : Nat) (hh : p.header < 256)
    (hz : p.header ≠ 0) (he : p.num_bits % 2 = 0) (hn : p.num_bits ≤ 31)
    (hd : p.data < 2 ^ p.num_bits) (hp : p.parity = CalcParity p) :
    decode rx tx (sendFrame p).tail =
      { header := p.header, data := p.data, parity := p.parity, pin_in := rx,
        pin_out := tx, counter := p.num_bits + 9, num_bits := p.num_bits,
        was_sent := true, incomplete := false } := by
  rw [sendFrame_eq, List.tail_cons]
  generalize hl : (List.range 8).map (bitRead p.header)
          ++ ((List.range p.num_bits).map (bitRead p.data) ++ [p.parity]) = l
  have hlen : l.length = p.num_bits + 9 := by
    rw [← hl]; simp; omega
  have hbit : ∀ i, bitAt l i = if i < 8 then p.header.testBit i
      else if i - 8 < p.num_bits then p.data.testBit (i - 8)
      else if i - 8 - p.num_bits = 0 then p.parity else false := by
    intro i
    rw [← hl, bitAt_map_range_append, bitAt_map_range_append, bitAt_singleton]
    simp only [bitRead_eq_testBit]
  obtain ⟨hc, hqh, hqd, hhb, hdb⟩ := addBits_new rx tx l (by omega)
  obtain ⟨f1, f2, f3, f4, f5, f6⟩ := addBits_fixed (Packet.new rx tx) l
  unfold decode
  generalize addBits (Packet.new rx tx) l = q at hc hqh hqd hhb hdb f1 f2 f3 f4 f5 f6
  have eh : q.header = p.header := by
    apply Nat.eq_of_testBit_eq
    intro i
    rw [hhb, hbit]
    by_cases h8 : i < 8
    · simp [h8]
    · have : p.header.testBit i = false :=
        testBit_of_lt_of_le (n := 8) (by simpa using hh) (by omega)
      simp [h8, this]
  have hnum : (if q.counter > 8 then q.counter - 9 else 0) = p.num_bits := by
    rw [hc, hlen]
    split_ifs <;> omega
  have epar : bitRead q.data p.num_bits = p.parity := by
    rw [bitRead_eq_testBit, hdb, hbit]
    have h1 : ¬ p.num_bits + 8 < 8 := by omega
    have h2 : ¬ p.num_bits + 8 - 8 < p.num_bits := by omega
    have h3 : p.num_bits + 8 - 8 - p.num_bits = 0 := by omega
    rw [if_neg h1, if_neg h2, if_pos h3]
  have edat : bitWrite q.data p.num_bits false % ulongMod = p.data := by
    apply Nat.eq_of_testBit_eq
    intro j
    show (bitWrite q.data p.num_bits false % 2 ^ 32).testBit j = _
    rw [bitWrite_testBit _ _ _ _ hqd, hdb, hbit]
    have h1 : ¬ j + 8 < 8 := by omega
    rw [if_neg h1]
    by_cases c1 : j < p.num_bits
    · have : ¬ (j = p.num_bits ∧ p.num_bits < 32) := by omega
      have c1' : j + 8 - 8 < p.num_bits := by omega
      rw [if_neg this, if_pos c1']
      congr 1
    · have hz0 : p.data.testBit j = false := testBit_of_lt_of_le hd (by omega)
      rw [hz0]
      by_cases c2 : j = p.num_bits
      · have : j = p.num_bits ∧ p.num_bits < 32 := by omega
        rw [if_pos this]
      · have : ¬ (j = p.num_bits ∧ p.num_bits < 32) := by omega
        have c1' : ¬ j + 8 - 8 < p.num_bits := by omega
        have c3 : ¬ j + 8 - 8 - p.num_bits = 0 := by omega
        rw [if_neg this, if_neg c1', if_neg c3]
  simp only [readFinish, hnum, epar, edat]
  rw [ErrorCheck_eq]
  simp only [he, if_true]
  have hcp : CalcParity { q with num_bits := p.num_bits, parity := p.parity, data := p.data }
      = CalcParity p := CalcParity_congr eh rfl rfl
  unfold evenCheck
  rw [hcp, ← hp]
  simp only [bne_self_eq_false, Bool.false_eq_true, if_false, eh, hz]
  ext <;> simp [eh, f2, f3, f5, f6, hc, hlen, Packet.new]

/-! ## The setters -/

theorem and_3 (x : Nat) : x &&& 3 = x % 4 := Nat.and_pow_two_sub_one_eq_mod x 2

theorem and_255 (x : Nat) : x &&& 255 = x % 256 := Nat.and_pow_two_sub_one_eq_mod x 8

theorem and_16777215 (x : Nat) : x &&& 16777215 = x % 16777216 :=
  Nat.and_pow_two_sub_one_eq_mod x 24

theorem and_252_shiftRight (x : Nat) : (x &&& 252) >>> 2 = x / 4 % 64 := by
  apply Nat.eq_of_testBit_eq
  intro i
  have e1 : (252 : Nat) = 2 ^ 8 - (3 + 1) := by norm_num
  have e2 : (3 : Nat) = 2 ^ 2 - 1 := by norm_num
  have e3 : x / 4 = x >>> 2 := by rw [Nat.shiftRight_eq_div_pow]
  have e4 : (64 : Nat) = 2 ^ 6 := by norm_num
  rw [Nat.testBit_shiftRight, Nat.testBit_and, e1,
    Nat.testBit_two_pow_sub_succ (by norm_num), e2, Nat.testBit_two_pow_sub_one, e3, e4,
    Nat.testBit_mod_two_pow, Nat.testBit_shiftRight]
  by_cases h : i < 6
  · have h1 : 2 + i < 8 := by omega
    have h2 : ¬ 2 + i < 2 := by omega
    simp [h, h1, h2]
  · have h1 : ¬ 2 + i < 8 := by omega
    simp [h, h1]

theorem shiftRight_eq_zero_of_lt {d n : Nat} (h : d < 2 ^ n) : d >>> n = 0 := by
  rw [Nat.shiftRight_eq_div_pow]
  exact Nat.div_eq_of_lt h

/-- The `num_bits` loop: started at an even count `n` with every smaller even
count too short, on a payload below `2^B`, it ends at the least even count
(at least 2) that covers the payload. -/
theorem numBitsLoop_spec (data B : Nat) (hB : B % 2 = 0) (hB3 : B ≤ 200)
    (hd : data < 2 ^ B) :
    ∀ fuel n, n % 2 = 0 → 2 ≤ n → n ≤ B → (B - n) / 2 < fuel →
      (∀ m, m % 2 = 0 → 2 ≤ m → m < n → data >>> m ≠ 0) →
      ∃ r, numBitsLoop data fuel n = some r ∧ r % 2 = 0 ∧ 2 ≤ r ∧ r ≤ B ∧
        data >>> r = 0 ∧ ∀ m, m % 2 = 0 → 2 ≤ m → data >>> m = 0 → r ≤ m := by
  intro fuel
  induction fuel with
  | zero => intro n _ _ _ h; omega
  | succ fuel ih =>
    intro n hn hn2 hnB hf hmin
    unfold numBitsLoop
    by_cases hs : data >>> n ≠ 0
    · rw [if_pos hs]
      have hlt : n < B := by
        by_contra hge
        have : n = B := by omega
        subst this
        exact hs (shiftRight_eq_zero_of_lt hd)
      have e : (n + 2) % 256 = n + 2 := by omega
      rw [e]
      apply ih (n + 2) (by omega) (by omega) (by omega) (by omega)
      intro m hm hm2 hmn
      by_cases c : m < n
      · exact hmin m hm hm2 c
      · have : m = n := by omega
        subst this
        exact hs
    · rw [if_neg hs]
      have hz : data >>> n = 0 := by simpa using hs
      refine ⟨n, rfl, hn, hn2, hnB, hz, ?_⟩
      intro m hm hm2 hmz
      by_contra hlt
      exact hmin m hm hm2 (by omega) hmz

/-- The tail of `Set` on a payload below `2^B` (with `B` even, from 2 to 200). -/
theorem setTail_spec (p : Packet) (B : Nat) (hB : B % 2 = 0) (hB2 : 2 ≤ B) (hB3 : B ≤ 200)
    (hd : p.data < 2 ^ B) :
    ∃ r, setTail p
        = some { p with num_bits := r, parity := CalcParity { p with num_bits := r } } ∧
      r % 2 = 0 ∧ 2 ≤ r ∧ r ≤ B ∧ p.data >>> r = 0 ∧
      ∀ m, m % 2 = 0 → 2 ≤ m → p.data >>> m = 0 → r ≤ m := by
  obtain ⟨r, h1, h2⟩ := numBitsLoop_spec p.data B hB hB3 hd 128 2 (by norm_num) (by norm_num)
    hB2 (by omega) (by intro m _ h2 h3; omega)
  refine ⟨r, ?_, h2⟩
  unfold setTail
  rw [h1]

theorem set_data_lt (data1 data2 data3 : Nat) (h1 : data1 < 256) (h2 : data2 < 256)
    (h3 : data3 < 256) :
    ((data3 <<< 16) % ulongMod + (data2 <<< 8) % ulongMod + data1) % ulongMod
      = data3 * 65536 + data2 * 256 + data1 := by
  simp only [Nat.shiftLeft_eq, ulongMod]
  omega

theorem SetLong_spec (p : Packet) (priority address longdata : Nat) :
    ∃ r, SetLong p priority address longdata
        = some { p with header := ((address <<< 2) + (priority &&& 3)) % 256,
                        data := longdata % 16777216,
                        num_bits := r,
                        parity := CalcParity
                          { p with header := ((address <<< 2) + (priority &&& 3)) % 256,
                                   data := longdata % 16777216,
                                   num_bits := r } } ∧
      r ≤ 24 ∧ MinimalBitCount (longdata % 16777216) r := by
  unfold SetLong
  rw [and_16777215]
  obtain ⟨r, h1, h2, h3, h4, h5, h6⟩ :=
    setTail_spec { p with header := ((address <<< 2) + (priority &&& 3)) % 256,
                          data := longdata % 16777216 } 24 (by norm_num) (by norm_num)
      (by norm_num) (by show longdata % 16777216 < 2 ^ 24; omega)
  exact ⟨r, h1, h4, h2, h3, h5, h6⟩

theorem Set_spec (p : Packet) (priority address data1 data2 data3 : Nat)
    (h1 : data1 < 256) (h2 : data2 < 256) (h3 : data3 < 256) :
    ∃ r, Set p priority address data1 data2 data3
        = some { p with header := ((address <<< 2) + (priority &&& 3)) % 256,
                        data := data3 * 65536 + data2 * 256 + data1,
                        num_bits := r,
                        parity := CalcParity
                          { p with header := ((address <<< 2) + (priority &&& 3)) % 256,
                                   data := data3 * 65536 + data2 * 256 + data1,
                                   num_bits := r } } ∧
      r ≤ 24 ∧ MinimalBitCount (data3 * 65536 + data2 * 256 + data1) r := by
  unfold Set
  rw [set_data_lt _ _ _ h1 h2 h3]
  obtain ⟨r, e1, e2, e3, e4, e5, e6⟩ :=
    setTail_spec { p with header := ((address <<< 2) + (priority &&& 3)) % 256,
                          data := data3 * 65536 + data2 * 256 + data1 } 24 (by norm_num)
      (by norm_num) (by norm_num)
      (by show data3 * 65536 + data2 * 256 + data1 < 2 ^ 24; omega)
  exact ⟨r, e1, e4, e2, e3, e5, e6⟩

/-! ## The claims -/

/-- C1, as the code has it.  Round trip: for every priority in 0..3, address
in 0..63 and payload below 2^24, not both priority and address zero, the
packet produced by `Set` (three-argument overload, and five-argument overload
on the three bytes of the payload), written to the wire as `Send` does and
decoded from the bits after the start bit into a fresh packet, gives back the
same priority, address and payload with `Incomplete() = false`. -/
theorem C1_round_trip (p : Packet) (rx tx priority address payload : Nat)
    (hp : priority ≤ 3) (ha : address ≤ 63) (hd : payload < 2 ^ 24)
    (hnz : ¬ (priority = 0 ∧ address = 0)) :
    (∃ q, SetLong p priority address payload = some q ∧
      Priority (decode rx tx (sendFrame q).tail) = priority ∧
      Address (decode rx tx (sendFrame q).tail) = address ∧
      (decode rx tx (sendFrame q).tail).data = payload ∧
      Incomplete (decode rx tx (sendFrame q).tail) = false) ∧
    (∃ q, Set p priority address (payload % 256) (payload / 256 % 256) (payload / 65536)
        = some q ∧
      Priority (decode rx tx (sendFrame q).tail) = priority ∧
      Address (decode rx tx (sendFrame q).tail) = address ∧
      (decode rx tx (sendFrame q).tail).data = payload ∧
      Incomplete (decode rx tx (sendFrame q).tail) = false) := by
  have hdat : payload % 16777216 = payload := Nat.mod_eq_of_lt (by simpa using hd)
  have hhdr : ((address <<< 2) + (priority &&& 3)) % 256 = address * 4 + priority := by
    rw [and_3, Nat.shiftLeft_eq]; omega
  have key : ∀ q : Packet, q.header = address * 4 + priority → q.data = payload →
      q.num_bits ≤ 24 → MinimalBitCount q.data q.num_bits → q.parity = CalcParity q →
      Priority (decode rx tx (sendFrame q).tail) = priority ∧
      Address (decode rx tx (sendFrame q).tail) = address ∧
      (decode rx tx (sendFrame q).tail).data = payload ∧
      Incomplete (decode rx tx (sendFrame q).tail) = false := by
    intro q qh qd qn qm qp
    obtain ⟨m1, _, m3, _⟩ := qm
    have hlt : q.data < 2 ^ q.num_bits := by
      rw [Nat.shiftRight_eq_div_pow] at m3
      exact (Nat.div_eq_zero_iff (by positivity)).1 m3
    rw [decode_sendFrame q rx tx (by omega) (by omega) m1 (by omega) hlt qp]
    refine ⟨?_, ?_, qd, rfl⟩
    · show q.header &&& 3 = priority
      rw [and_3]; omega
    · show q.header >>> 2 = address
      rw [Nat.shiftRight_eq_div_pow]; omega
  constructor
  · obtain ⟨r, e, hr, hm⟩ := SetLong_spec p priority address payload
    rw [hdat, hhdr] at e
    rw [hdat] at hm
    exact ⟨_, e, key _ rfl rfl hr hm rfl⟩
  · obtain ⟨r, e, hr, hm⟩ := Set_spec p priority address (payload % 256)
      (payload / 256 % 256) (payload / 65536) (by omega) (by omega)
      (by have : payload < 16777216 := by simpa using hd
          omega)
    have e2 : payload / 65536 * 65536 + payload / 256 % 256 * 256 + payload % 256
        = payload := by omega
    rw [e2, hhdr] at e
    rw [e2] at hm
    exact ⟨_, e, key _ rfl rfl hr hm rfl⟩

/-- Witness of C1: priority 1, address 5, payload 170. -/
theorem C1_round_trip_witness :
    (1 ≤ 3 ∧ 5 ≤ 63 ∧ 170 < 2 ^ 24 ∧ ¬ ((1 : Nat) = 0 ∧ (5 : Nat) = 0)) ∧
    ((∃ q, SetLong (Packet.new 1 2) 1 5 170 = some q ∧
      Priority (decode 1 2 (sendFrame q).tail) = 1 ∧
      Address (decode 1 2 (sendFrame q).tail) = 5 ∧
      (decode 1 2 (sendFrame q).tail).data = 170 ∧
      Incomplete (decode 1 2 (sendFrame q).tail) = false) ∧
    (∃ q, Set (Packet.new 1 2) 1 5 (170 % 256) (170 / 256 % 256) (170 / 65536) = some q ∧
      Priority (decode 1 2 (sendFrame q).tail) = 1 ∧
      Address (decode 1 2 (sendFrame q).tail) = 5 ∧
      (decode 1 2 (sendFrame q).tail).data = 170 ∧
      Incomplete (decode 1 2 (sendFrame q).tail) = false)) :=
  ⟨by decide, C1_round_trip (Packet.new 1 2) 1 2 1 5 170 (by decide) (by decide)
    (by decide) (by decide)⟩

/-- C1 as stated fails at priority 0, address 0, payload 1: `Set` gives header
0, payload 1, two payload bits, parity 1; the decode of the bits `Send` writes
takes the all-zero-header path of `ErrorCheck` and ends with header 3 (priority
3), payload 4, four payload bits and `Incomplete() = true`. -/
theorem C1_counterexample :
    SetLong (Packet.new 1 2) 0 0 1
      = some { header := 0, data := 1, parity := true, pin_in := 1, pin_out := 2,
               counter := 0, num_bits := 2, was_sent := false, incomplete := false } ∧
    decode 1 2 (sendFrame
        { header := 0, data := 1, parity := true, pin_in := 1, pin_out := 2,
          counter := 0, num_bits := 2, was_sent := false, incomplete := false }).tail
      = { header := 3, data := 4, parity := true, pin_in := 1, pin_out := 2,
          counter := 11, num_bits := 4, was_sent := true, incomplete := true } := by
  constructor
  · decide
  · simp only [decode, readFinish]
    rw [ErrorCheck_eq]
    decide

/-- C2.  Parity invariant: after each `Set` overload (five bytes, long
payload, unique value) and after the decode of any received frame of at most
33 bits into a fresh packet, `CalcParity()` equals the stored parity bit. -/
theorem C2_parity_invariant (p : Packet)
    (priority address data1 data2 data3 longdata unique rx tx : Nat) (bits : List Bool)
    (hlen : bits.length ≤ 33) :
    (∃ q, Set p priority address data1 data2 data3 = some q ∧ CalcParity q = q.parity) ∧
    (∃ q, SetLong p priority address longdata = some q ∧ CalcParity q = q.parity) ∧
    (∃ q, SetUnique p unique = some q ∧ CalcParity q = q.parity) ∧
    CalcParity (decode rx tx bits) = (decode rx tx bits).parity := by
  refine ⟨?_, ?_, ?_, ?_⟩
  · unfold Set
    obtain ⟨r, e, _⟩ := setTail_spec
      { p with header := ((address <<< 2) + (priority &&& 3)) % 256,
               data := ((data3 <<< 16) % ulongMod + (data2 <<< 8) % ulongMod + data1)
                         % ulongMod } 32 (by norm_num) (by norm_num) (by norm_num)
      (Nat.mod_lt _ (by norm_num [ulongMod]))
    exact ⟨_, e, rfl⟩
  · obtain ⟨r, e, _⟩ := SetLong_spec p priority address longdata
    exact ⟨_, e, rfl⟩
  · unfold SetUnique
    obtain ⟨r, e, _⟩ := SetLong_spec p ((unique &&& 3) % 256)
      (((unique &&& 252) >>> 2) % 256) (unique >>> 8)
    exact ⟨_, e, rfl⟩
  · obtain ⟨hc, hh, _, _, _⟩ := addBits_new rx tx bits (by omega)
    unfold decode
    generalize addBits (Packet.new rx tx) bits = q at hc hh
    simp only [readFinish]
    have hn : (if q.counter > 8 then q.counter - 9 else 0) ≤ 29 := by
      split_ifs <;> omega
    generalize (if q.counter > 8 then q.counter - 9 else 0) = n at hn
    have h := ErrorCheck_parity
      { q with num_bits := n, parity := bitRead q.data n,
               data := bitWrite q.data n false % ulongMod } hh hn
    rw [← h]
    exact CalcParity_congr rfl rfl rfl

/-- Witness of C2: a frame of eleven received bits. -/
theorem C2_parity_invariant_witness :
    [true, false, true, false, true, false, false, false, true, true, false].length ≤ 33 ∧
    ((∃ q, Set (Packet.new 1 2) 1 5 170 0 0 = some q ∧ CalcParity q = q.parity) ∧
    (∃ q, SetLong (Packet.new 1 2) 1 5 170 = some q ∧ CalcParity q = q.parity) ∧
    (∃ q, SetUnique (Packet.new 1 2) 43541 = some q ∧ CalcParity q = q.parity) ∧
    CalcParity (decode 1 2
        [true, false, true, false, true, false, false, false, true, true, false])
      = (decode 1 2
        [true, false, true, false, true, false, false, false, true, true, false]).parity) :=
  ⟨by decide, C2_parity_invariant (Packet.new 1 2) 1 5 170 0 0 170 43541 1 2
    [true, false, true, false, true, false, false, false, true, true, false] (by decide)⟩

/-- C3.  `Unique()` round trip: for every packet state (members in the range
of their types) whose payload is below 2^24, `Unique()` equals
`header + (payload << 8)`, and `Set(Unique())` leaves `Priority()`,
`Address()` and the payload as they were. -/
theorem C3_unique_round_trip (p : Packet) (hr : p.InRange) (hd : p.data < 2 ^ 24) :
    Unique p = p.header + (p.data <<< 8) ∧
    ∃ q, SetUnique p (Unique p) = some q ∧
      Priority q = Priority p ∧ Address q = Address p ∧ q.data = p.data := by
  obtain ⟨hh, _⟩ := hr
  have hd2 : p.data < 16777216 := by simpa using hd
  have hu : Unique p = p.header + (p.data <<< 8) := by
    simp only [Unique, ulongMod, Nat.shiftLeft_eq]
    omega
  refine ⟨hu, ?_⟩
  unfold SetUnique
  obtain ⟨r, e, _⟩ := SetLong_spec p ((Unique p &&& 3) % 256)
    (((Unique p &&& 252) >>> 2) % 256) (Unique p >>> 8)
  refine ⟨_, e, ?_, ?_, ?_⟩
  · show (((((Unique p &&& 252) >>> 2) % 256) <<< 2 + (((Unique p &&& 3) % 256) &&& 3)) % 256)
        &&& 3 = p.header &&& 3
    rw [hu]
    simp only [and_3, and_252_shiftRight]
    simp only [Nat.shiftLeft_eq]
    omega
  · show (((((Unique p &&& 252) >>> 2) % 256) <<< 2 + (((Unique p &&& 3) % 256) &&& 3)) % 256)
        >>> 2 = p.header >>> 2
    rw [hu]
    simp only [and_3, and_252_shiftRight]
    simp only [Nat.shiftLeft_eq, Nat.shiftRight_eq_div_pow]
    omega
  · show (Unique p >>> 8) % 16777216 = p.data
    rw [hu]
    simp only [Nat.shiftLeft_eq, Nat.shiftRight_eq_div_pow]
    omega

/-- Witness of C3: the packet with header 21 and payload 170. -/
theorem C3_unique_round_trip_witness :
    (samplePacket.InRange ∧ samplePacket.data < 2 ^ 24) ∧
    (Unique samplePacket = samplePacket.header + (samplePacket.data <<< 8) ∧
      ∃ q, SetUnique samplePacket (Unique samplePacket) = some q ∧
        Priority q = Priority samplePacket ∧ Address q = Address samplePacket ∧
        q.data = samplePacket.data) :=
  ⟨⟨by decide, by decide⟩, C3_unique_round_trip samplePacket (by decide) (by decide)⟩

/-- C4.  Minimality: after `Set`, five-argument overload on any bytes and
three-argument overload on any value, the `num_bits` loop has ended (the call
returns a packet), and `num_bits` is even, between 2 and 24, with
`data >> num_bits == 0`, and no smaller even number from 2 on has that
property. -/
theorem C4_minimal_bit_count (p : Packet) (priority address data1 data2 data3 longdata : Nat)
    (h1 : data1 < 256) (h2 : data2 < 256) (h3 : data3 < 256) :
    (∃ q, Set p priority address data1 data2 data3 = some q ∧
      q.num_bits % 2 = 0 ∧ 2 ≤ q.num_bits ∧ q.num_bits ≤ 24 ∧ q.data >>> q.num_bits = 0 ∧
      ∀ m, m % 2 = 0 → 2 ≤ m → m < q.num_bits → q.data >>> m ≠ 0) ∧
    (∃ q, SetLong p priority address longdata = some q ∧
      q.num_bits % 2 = 0 ∧ 2 ≤ q.num_bits ∧ q.num_bits ≤ 24 ∧ q.data >>> q.num_bits = 0 ∧
      ∀ m, m % 2 = 0 → 2 ≤ m → m < q.num_bits → q.data >>> m ≠ 0) := by
  constructor
  · obtain ⟨r, e, hr, m1, m2, m3, m4⟩ := Set_spec p priority address data1 data2 data3 h1 h2 h3
    refine ⟨_, e, m1, m2, hr, m3, ?_⟩
    intro m hm hm2 hlt hz
    exact absurd (m4 m hm hm2 hz) (by
      show ¬ r ≤ m
      exact Nat.not_le.2 hlt)
  · obtain ⟨r, e, hr, m1, m2, m3, m4⟩ := SetLong_spec p priority address longdata
    refine ⟨_, e, m1, m2, hr, m3, ?_⟩
    intro m hm hm2 hlt hz
    exact absurd (m4 m hm hm2 hz) (by
      show ¬ r ≤ m
      exact Nat.not_le.2 hlt)

/-- Witness of C4: `Set(1, 5, 0xAA, 0, 0)` and `Set(1, 5, 0x1234)`. -/
theorem C4_minimal_bit_count_witness :
    ((170 : Nat) < 256 ∧ (0 : Nat) < 256 ∧ (0 : Nat) < 256) ∧
    ((∃ q, Set (Packet.new 1 2) 1 5 170 0 0 = some q ∧
      q.num_bits % 2 = 0 ∧ 2 ≤ q.num_bits ∧ q.num_bits ≤ 24 ∧ q.data >>> q.num_bits = 0 ∧
      ∀ m, m % 2 = 0 → 2 ≤ m → m < q.num_bits → q.data >>> m ≠ 0) ∧
    (∃ q, SetLong (Packet.new 1 2) 1 5 4660 = some q ∧
      q.num_bits % 2 = 0 ∧ 2 ≤ q.num_bits ∧ q.num_bits ≤ 24 ∧ q.data >>> q.num_bits = 0 ∧
      ∀ m, m % 2 = 0 → 2 ≤ m → m < q.num_bits → q.data >>> m ≠ 0)) :=
  ⟨by decide, C4_minimal_bit_count (Packet.new 1 2) 1 5 170 0 0 4660 (by decide) (by decide)
    (by decide)⟩

/-- C5.  `Set` stores its fields by masking and the accessors read them back:
for every `priority` and `address` and bytes `data1`, `data2`, `data3`, after the
five-argument `Set` the low 2 bits of the header are `priority & 3` and its
high 6 bits are `address & 63`, so `Priority()` is `priority & 3` and
`Address()` is `address & 63` (the inputs themselves when `priority <= 3` and
`address <= 63`), and `Byte(0)`, `Byte(1)`, `Byte(2)` are the three data
bytes; after the three-argument `Set` the header is the same and the payload
is `longdata mod 2^24`. -/
theorem C5_set_masks (p : Packet) (priority address data1 data2 data3 longdata : Nat)
    (h1 : data1 < 256) (h2 : data2 < 256) (h3 : data3 < 256) :
    (∃ q, Set p priority address data1 data2 data3 = some q ∧
      q.header < 256 ∧ q.header % 4 = priority &&& 3 ∧ q.header / 4 = address &&& 63 ∧
      Priority q = priority &&& 3 ∧ Address q = address &&& 63 ∧
      (priority ≤ 3 → Priority q = priority) ∧ (address ≤ 63 → Address q = address) ∧
      Byte q 0 = data1 ∧ Byte q 1 = data2 ∧ Byte q 2 = data3) ∧
    (∃ q, SetLong p priority address longdata = some q ∧
      q.header < 256 ∧ q.header % 4 = priority &&& 3 ∧ q.header / 4 = address &&& 63 ∧
      Priority q = priority &&& 3 ∧ Address q = address &&& 63 ∧
      (priority ≤ 3 → Priority q = priority) ∧ (address ≤ 63 → Address q = address) ∧
      q.data = longdata % 2 ^ 24) := by
  have e3 : priority &&& 3 = priority % 4 := and_3 priority
  have e63 : address &&& 63 = address % 64 := Nat.and_pow_two_sub_one_eq_mod address 6
  have hhdr : ((address <<< 2) + (priority &&& 3)) % 256
      = (address % 64) * 4 + priority % 4 := by
    rw [e3, Nat.shiftLeft_eq]; omega
  have hP : (((address <<< 2) + (priority &&& 3)) % 256) &&& 3 = priority % 4 := by
    rw [hhdr, and_3]; omega
  have hA : (((address <<< 2) + (priority &&& 3)) % 256) >>> 2 = address % 64 := by
    rw [hhdr, Nat.shiftRight_eq_div_pow]; omega
  constructor
  · obtain ⟨r, e, _⟩ := Set_spec p priority address data1 data2 data3 h1 h2 h3
    refine ⟨_, e, ?_, ?_, ?_, ?_, ?_, ?_, ?_, ?_, ?_, ?_⟩
    · show ((address <<< 2) + (priority &&& 3)) % 256 < 256
      omega
    · show ((address <<< 2) + (priority &&& 3)) % 256 % 4 = priority &&& 3
      rw [hhdr, e3]; omega
    · show ((address <<< 2) + (priority &&& 3)) % 256 / 4 = address &&& 63
      rw [hhdr, e63]; omega
    · show (((address <<< 2) + (priority &&& 3)) % 256) &&& 3 = priority &&& 3
      rw [hP, e3]
    · show (((address <<< 2) + (priority &&& 3)) % 256) >>> 2 = address &&& 63
      rw [hA, e63]
    · intro h
      show (((address <<< 2) + (priority &&& 3)) % 256) &&& 3 = priority
      rw [hP]; omega
    · intro h
      show (((address <<< 2) + (priority &&& 3)) % 256) >>> 2 = address
      rw [hA]; omega
    · show (((data3 * 65536 + data2 * 256 + data1) >>> (0 * 8)) &&& 255) % 256 = data1
      rw [and_255, Nat.shiftRight_eq_div_pow]; omega
    · show (((data3 * 65536 + data2 * 256 + data1) >>> (1 * 8)) &&& 255) % 256 = data2
      rw [and_255, Nat.shiftRight_eq_div_pow]; omega
    · show (((data3 * 65536 + data2 * 256 + data1) >>> (2 * 8)) &&& 255) % 256 = data3
      rw [and_255, Nat.shiftRight_eq_div_pow]; omega
  · obtain ⟨r, e, _⟩ := SetLong_spec p priority address longdata
    refine ⟨_, e, ?_, ?_, ?_, ?_, ?_, ?_, ?_, ?_⟩
    · show ((address <<< 2) + (priority &&& 3)) % 256 < 256
      omega
    · show ((address <<< 2) + (priority &&& 3)) % 256 % 4 = priority &&& 3
      rw [hhdr, e3]; omega
    · show ((address <<< 2) + (priority &&& 3)) % 256 / 4 = address &&& 63
      rw [hhdr, e63]; omega
    · show (((address <<< 2) + (priority &&& 3)) % 256) &&& 3 = priority &&& 3
      rw [hP, e3]
    · show (((address <<< 2) + (priority &&& 3)) % 256) >>> 2 = address &&& 63
      rw [hA, e63]
    · intro h
      show (((address <<< 2) + (priority &&& 3)) % 256) &&& 3 = priority
      rw [hP]; omega
    · intro h
      show (((address <<< 2) + (priority &&& 3)) % 256) >>> 2 = address
      rw [hA]; omega
    · show longdata % 16777216 = longdata % 2 ^ 24
      norm_num

/-- Witness of C5: priority 7 and address 200 are out of range and masked to
3 and 8. -/
theorem C5_set_masks_witness :
    ((170 : Nat) < 256 ∧ (18 : Nat) < 256 ∧ (52 : Nat) < 256) ∧
    ((∃ q, Set (Packet.new 1 2) 7 200 170 18 52 = some q ∧
      q.header < 256 ∧ q.header % 4 = 7 &&& 3 ∧ q.header / 4 = 200 &&& 63 ∧
      Priority q = 7 &&& 3 ∧ Address q = 200 &&& 63 ∧
      (7 ≤ 3 → Priority q = 7) ∧ (200 ≤ 63 → Address q = 200) ∧
      Byte q 0 = 170 ∧ Byte q 1 = 18 ∧ Byte q 2 = 52) ∧
    (∃ q, SetLong (Packet.new 1 2) 7 200 4294967295 = some q ∧
      q.header < 256 ∧ q.header % 4 = 7 &&& 3 ∧ q.header / 4 = 200 &&& 63 ∧
      Priority q = 7 &&& 3 ∧ Address q = 200 &&& 63 ∧
      (7 ≤ 3 → Priority q = 7) ∧ (200 ≤ 63 → Address q = 200) ∧
      q.data = 4294967295 % 2 ^ 24)) :=
  ⟨by decide, C5_set_masks (Packet.new 1 2) 7 200 170 18 52 4294967295 (by decide)
    (by decide) (by decide)⟩

/-! ## The bus-idle wait of `Send` -/

/-- The wait ends with an idle bus when a run of `waitloops` idle samples
starts at `n` and every run of `maxloops + 1` busy samples starts later. -/
theorem sendWait_idle (pind : Nat → Nat) (pin_in n : Nat)
    (hidle : IdleRun pind pin_in n waitloops)
    (hbusy : ∀ m, BusyRun pind pin_in m (maxloops + 1) → n ≤ m) :
    ∀ fuel t loops tries, n + waitloops - t < fuel →
      loops ≤ waitloops → t - n ≤ loops →
      tries ≤ maxloops → tries ≤ t →
      (∀ j, t - tries ≤ j → j < t → lineHigh pind pin_in j = true) →
      ∃ t1, t1 ≤ n + waitloops ∧ sendWait pind pin_in fuel t loops tries = some (true, t1) := by
  intro fuel
  induction fuel with
  | zero => intro t loops tries h; omega
  | succ fuel ih =>
    intro t loops tries hf hl hln ht htt hrun
    unfold sendWait
    simp only [waitloops, maxloops, uintMod] at *
    by_cases hc : loops < 15000
    · rw [if_pos hc]
      by_cases hh : lineHigh pind pin_in t = true
      · have htn : t < n := by
          by_contra hge
          have := hidle t (by omega) (by omega)
          rw [this] at hh
          exact Bool.false_ne_true hh
        have htr : tries < 2000 := by
          by_contra hge
          have h2000 : tries = 2000 := by omega
          have := hbusy (t - 2000) (by
            intro i hi1 hi2
            by_cases hit : i = t
            · rw [hit]; exact hh
            · exact hrun i (by omega) (by omega))
          omega
        simp only [hh, if_true]
        have e : (tries + 1) % 2 ^ 16 = tries + 1 := by omega
        rw [e, if_neg (by omega)]
        apply ih (t + 1) 0 (tries + 1) (by omega) (by omega) (by omega) (by omega) (by omega)
        intro j hj1 hj2
        by_cases hit : j = t
        · rw [hit]; exact hh
        · exact hrun j (by omega) (by omega)
      · have hh2 : lineHigh pind pin_in t = false := by simpa using hh
        simp only [hh2, Bool.false_eq_true, if_false]
        have e : (loops + 1) % 2 ^ 16 = loops + 1 := by omega
        rw [e, if_neg (by omega)]
        apply ih (t + 1) (loops + 1) 0 (by omega) (by omega) (by omega) (by omega) (by omega)
        intro j hj1 hj2
        omega
    · rw [if_neg hc]
      exact ⟨t, by omega, rfl⟩

/-- The wait ends with the early return when a run of `maxloops + 1` busy
samples starts at `m` and every run of `waitloops` idle samples starts
later. -/
theorem sendWait_busy (pind : Nat → Nat) (pin_in m : Nat)
    (hbusy : BusyRun pind pin_in m (maxloops + 1))
    (hidle : ∀ n, IdleRun pind pin_in n waitloops → m ≤ n) :
    ∀ fuel t loops tries, m + (maxloops + 1) - t < fuel →
      tries ≤ maxloops → t - m ≤ tries →
      loops ≤ waitloops → loops ≤ t →
      (∀ j, t - loops ≤ j → j < t → lineHigh pind pin_in j = false) →
      ∃ t1, t1 ≤ m + (maxloops + 1) ∧
        sendWait pind pin_in fuel t loops tries = some (false, t1) := by
  intro fuel
  induction fuel with
  | zero => intro t loops tries h; omega
  | succ fuel ih =>
    intro t loops tries hf ht htm hl hlt hrun
    unfold sendWait
    simp only [waitloops, maxloops, uintMod] at *
    have hc : loops < 15000 := by
      by_contra hge
      have h15 : loops = 15000 := by omega
      have := hidle (t - 15000) (by
        intro i hi1 hi2
        exact hrun i (by omega) (by omega))
      omega
    rw [if_pos hc]
    by_cases hh : lineHigh pind pin_in t = true
    · simp only [hh, if_true]
      have e : (tries + 1) % 2 ^ 16 = tries + 1 := by omega
      rw [e]
      by_cases hx : tries + 1 > 2000
      · rw [if_pos hx]
        exact ⟨t + 1, by omega, rfl⟩
      · rw [if_neg hx]
        apply ih (t + 1) 0 (tries + 1) (by omega) (by omega) (by omega) (by omega) (by omega)
        intro j hj1 hj2
        omega
    · have htm2 : t < m := by
        by_contra hge
        exact hh (hbusy t (by omega) (by omega))
      have hh2 : lineHigh pind pin_in t = false := by simpa using hh
      simp only [hh2, Bool.false_eq_true, if_false]
      have e : (loops + 1) % 2 ^ 16 = loops + 1 := by omega
      rw [e, if_neg (by omega)]
      apply ih (t + 1) (loops + 1) 0 (by omega) (by omega) (by omega) (by omega) (by omega)
      intro j hj1 hj2
      by_cases hit : j = t
      · rw [hit]; exact hh2
      · exact hrun j (by omega) (by omega)

/-! ## `Read` on a line that never changes level -/

theorem readStart_high (pind : Nat → Nat) (pin_in : Nat)
    (hi : ∀ t, lineHigh pind pin_in t = true) :
    ∀ fuel t loops, loops ≤ maxloops → maxloops - loops < fuel →
      readStart pind pin_in fuel t loops = some (t + (maxloops + 1 - loops), maxloops + 1) := by
  intro fuel
  induction fuel with
  | zero => intro t loops _ h; omega
  | succ fuel ih =>
    intro t loops hl hf
    unfold readStart
    simp only [maxloops, ulongMod] at *
    rw [if_pos (hi t)]
    by_cases hc : loops < 2000
    · rw [if_pos hc]
      have e : (loops + 1) % 2 ^ 32 = loops + 1 := by omega
      rw [e, ih (t + 1) (loops + 1) (by omega) (by omega)]
      congr 2
      omega
    · rw [if_neg hc]
      have e : loops = 2000 := by omega
      subst e
      rfl

theorem readGap_low (pind : Nat → Nat) (pin_in : Nat)
    (lo : ∀ t, lineHigh pind pin_in t = false) :
    ∀ fuel t loops, loops ≤ maxloops + 1 → maxloops + 2 - loops < fuel →
      readGap pind pin_in fuel t loops true
        = some (t + (maxloops + 3 - loops), maxloops + 2, false) := by
  intro fuel
  induction fuel with
  | zero => intro t loops _ h; omega
  | succ fuel ih =>
    intro t loops hl hf
    unfold readGap
    simp only [maxloops, ulongMod] at *
    simp only [lo t, Bool.not_false, Bool.and_self, if_true]
    have e : (loops + 1) % 2 ^ 32 = loops + 1 := by omega
    rw [e]
    by_cases hc : loops > 2000
    · rw [if_pos hc]
      have e2 : loops = 2001 := by omega
      subst e2
      cases fuel with
      | zero => omega
      | succ fuel =>
        unfold readGap
        simp [lo]
    · rw [if_neg hc, ih (t + 1) (loops + 1) (by omega) (by omega)]
      congr 2
      omega

theorem Read_high (pind : Nat → Nat) (p : Packet)
    (hi : ∀ t, lineHigh pind p.pin_in t = true) (fuel : Nat) (hf : maxloops < fuel) :
    Read fuel pind p = some (maxloops + 1, p) := by
  unfold Read
  rw [readStart_high pind p.pin_in hi fuel 0 0 (by omega) (by omega)]
  simp [maxloops]

theorem Read_low (pind : Nat → Nat) (p : Packet)
    (lo : ∀ t, lineHigh pind p.pin_in t = false) (fuel : Nat) (hf : maxloops + 3 < fuel) :
    Read fuel pind p = some (maxloops + 4, readFinish p) := by
  unfold Read
  obtain ⟨f1, rfl⟩ : ∃ f1, fuel = f1 + 1 := ⟨fuel - 1, by omega⟩
  obtain ⟨f2, rfl⟩ : ∃ f2, f1 = f2 + 1 := ⟨f1 - 1, by omega⟩
  have h1 : readStart pind p.pin_in (f2 + 1 + 1) 0 0 = some (1, 0) := by
    unfold readStart
    simp [lo]
  have h2 : readBits pind (f2 + 1 + 1) 1 0 true p = some (maxloops + 4, p) := by
    unfold readBits
    simp only [if_true]
    rw [readGap_low pind p.pin_in lo (f2 + 1) 1 0 (by omega) (by omega)]
    simp only [Bool.false_eq_true, if_false]
    unfold readBits
    simp only [Bool.false_eq_true, if_false]
    congr 2
  rw [h1]
  simp only [maxloops] at h2 ⊢
  rw [if_neg (by omega), h2]

theorem Send_of_idle (p : Packet) (pind : Nat → Nat) (hn : p.num_bits ≠ 0)
    (ho : p.pin_out ≠ 0) (n : Nat) (hidle : IdleRun pind p.pin_in n waitloops)
    (hbusy : ∀ m, BusyRun pind p.pin_in m (maxloops + 1) → n ≤ m)
    (fuel : Nat) (hf : n + waitloops < fuel) :
    ∃ t, Send fuel pind p = some ({ p with was_sent := true }, sendFrame p, t) := by
  obtain ⟨t1, _, e⟩ := sendWait_idle pind p.pin_in n hidle hbusy fuel 0 0 0 (by omega)
    (by simp [waitloops]) (by omega) (by simp [maxloops]) (le_refl _)
    (by intro j _ h; omega)
  refine ⟨t1, ?_⟩
  unfold Send
  rw [if_pos ⟨hn, ho⟩, e]

theorem Send_of_busy (p : Packet) (pind : Nat → Nat) (hn : p.num_bits ≠ 0)
    (ho : p.pin_out ≠ 0) (m : Nat) (hbusy : BusyRun pind p.pin_in m (maxloops + 1))
    (hidle : ∀ n, IdleRun pind p.pin_in n waitloops → m ≤ n)
    (fuel : Nat) (hf : m + (maxloops + 1) < fuel) :
    ∃ t, Send fuel pind p = some (p, [], t) := by
  obtain ⟨t1, _, e⟩ := sendWait_busy pind p.pin_in m hbusy hidle fuel 0 0 0 (by omega)
    (by simp [maxloops]) (by omega) (by simp [waitloops]) (le_refl _)
    (by intro j _ h; omega)
  refine ⟨t1, ?_⟩
  unfold Send
  rw [if_pos ⟨hn, ho⟩, e]

theorem ErrorCheck_num_bits_even (p : Packet) : (ErrorCheck p).num_bits % 2 = 0 := by
  have hev : ∀ q : Packet, q.num_bits % 2 = 0 → (evenCheck q).num_bits % 2 = 0 := by
    intro q hq
    unfold evenCheck
    split_ifs
    · show (q.num_bits + 2) % 256 % 2 = 0
      omega
    · show (q.num_bits + 2) % 256 % 2 = 0
      omega
    · exact hq
  rw [ErrorCheck_eq]
  split_ifs with he hm
  · exact hev p he
  · show (p.num_bits + 1) % 256 % 2 = 0
    omega
  · show (evenCheck (oddShift p)).num_bits % 2 = 0
    apply hev
    show (p.num_bits + 1) % 256 % 2 = 0
    omega

/-- The bit count after a decode is even, whatever was received. -/
theorem decode_num_bits_even (rx tx : Nat) (bits : List Bool) :
    (decode rx tx bits).num_bits % 2 = 0 := by
  unfold decode readFinish
  exact ErrorCheck_num_bits_even _

/-- C6.  Wire order of `Send`: for every packet with non-zero `num_bits` and a
configured output line, on an idle bus `Send()` returns, sets `was_sent`, and
has sent exactly `num_bits + 10` bits: the start bit 1, header bits 0..7,
payload bits 0..num_bits-1, then the stored parity bit.  For
`Set(1, 5, 0xAA, 0, 0)` the bits are 1, then 1,0,1,0,1,0,0,0, then
0,1,0,1,0,1,0,1, then the parity 1. -/
theorem C6_send_wire_order (p : Packet) (pind : Nat → Nat) (hn : p.num_bits ≠ 0)
    (ho : p.pin_out ≠ 0) (hidle : ∀ t, lineHigh pind p.pin_in t = false)
    (fuel : Nat) (hf : waitloops < fuel) :
    (∃ t, Send fuel pind p
      = some ({ p with was_sent := true },
          [true] ++ (List.range 8).map (fun i => bitRead p.header i)
            ++ (List.range p.num_bits).map (fun i => bitRead p.data i) ++ [p.parity], t)) ∧
    ([true] ++ (List.range 8).map (fun i => bitRead p.header i)
        ++ (List.range p.num_bits).map (fun i => bitRead p.data i) ++ [p.parity]).length
      = p.num_bits + 10 ∧
    (∃ q t, Set p 1 5 170 0 0 = some q ∧
      Send fuel pind q
        = some ({ q with was_sent := true },
            [true, true, false, true, false, true, false, false, false,
             false, true, false, true, false, true, false, true, true], t)) := by
  have hgen : ∀ q : Packet, q.num_bits ≠ 0 → q.pin_out ≠ 0 → q.pin_in = p.pin_in →
      ∃ t, Send fuel pind q = some ({ q with was_sent := true }, sendFrame q, t) := by
    intro q h1 h2 h3
    apply Send_of_idle q pind h1 h2 0
    · intro i _ _
      rw [h3]; exact hidle i
    · intro m _
      exact Nat.zero_le m
    · omega
  refine ⟨?_, ?_, ?_⟩
  · obtain ⟨t, e⟩ := hgen p hn ho rfl
    refine ⟨t, ?_⟩
    rw [e, sendFrame_eq]
    simp
  · simp
    omega
  · have e : Set p 1 5 170 0 0
        = some { p with header := 21, data := 170, num_bits := 8, parity := true } := by
      simp [Set, setTail, numBitsLoop, ulongMod, CalcParity, bitRead, List.range,
        List.range.loop, List.range']
    obtain ⟨t, e2⟩ := hgen { p with header := 21, data := 170, num_bits := 8, parity := true }
      (by simp) ho rfl
    refine ⟨_, t, e, ?_⟩
    rw [e2]
    simp [sendFrame_eq, bitRead, List.range, List.range.loop]

/-- Witness of C6: the sample packet on a line that always reads 0. -/
theorem C6_send_wire_order_witness :
    (samplePacket.num_bits ≠ 0 ∧ samplePacket.pin_out ≠ 0 ∧
      (∀ t, lineHigh (fun _ => 0) samplePacket.pin_in t = false) ∧ waitloops < 15001) ∧
    ((∃ t, Send 15001 (fun _ => 0) samplePacket
      = some ({ samplePacket with was_sent := true },
          [true] ++ (List.range 8).map (fun i => bitRead samplePacket.header i)
            ++ (List.range samplePacket.num_bits).map (fun i => bitRead samplePacket.data i)
            ++ [samplePacket.parity], t)) ∧
    ([true] ++ (List.range 8).map (fun i => bitRead samplePacket.header i)
        ++ (List.range samplePacket.num_bits).map (fun i => bitRead samplePacket.data i)
        ++ [samplePacket.parity]).length
      = samplePacket.num_bits + 10 ∧
    (∃ q t, Set samplePacket 1 5 170 0 0 = some q ∧
      Send 15001 (fun _ => 0) q
        = some ({ q with was_sent := true },
            [true, true, false, true, false, true, false, false, false,
             false, true, false, true, false, true, false, true, true], t))) :=
  ⟨⟨by decide, by decide, by intro t; simp [lineHigh], by decide⟩,
    C6_send_wire_order samplePacket (fun _ => 0) (by decide) (by decide)
      (by intro t; simp [lineHigh]) 15001 (by decide)⟩

/-- C7, as the code has it.  Read timeout: for a freshly constructed packet and
every input line that reads high at every sample, `Read` returns after
`maxloops + 1` samples with `was_sent = false` and with header, payload,
parity, bit count and the incomplete flag at their constructed defaults
(0, 0, false, 0, false). -/
theorem C7_read_timeout (pind : Nat → Nat) (rx tx : Nat)
    (hi : ∀ t, lineHigh pind rx t = true) (fuel : Nat) (hf : maxloops < fuel) :
    ∃ r, Read fuel pind (Packet.new rx tx) = some (maxloops + 1, r) ∧
      r = Packet.new rx tx ∧ Sent r = false ∧ r.header = 0 ∧ r.data = 0 ∧
      r.parity = false ∧ r.num_bits = 0 ∧ Incomplete r = false :=
  ⟨Packet.new rx tx, Read_high pind (Packet.new rx tx) hi fuel hf, rfl, rfl, rfl, rfl, rfl,
    rfl, rfl⟩

/-- Witness of C7: the line that always reads 1, polled through pin mask 1. -/
theorem C7_read_timeout_witness :
    ((∀ t, lineHigh (fun _ => 1) 1 t = true) ∧ maxloops < 2001) ∧
    ∃ r, Read 2001 (fun _ => 1) (Packet.new 1 2) = some (maxloops + 1, r) ∧
      r = Packet.new 1 2 ∧ Sent r = false ∧ r.header = 0 ∧ r.data = 0 ∧
      r.parity = false ∧ r.num_bits = 0 ∧ Incomplete r = false :=
  ⟨⟨by intro t; simp [lineHigh], by decide⟩,
    C7_read_timeout (fun _ => 1) 1 2 (by intro t; simp [lineHigh]) 2001 (by decide)⟩

/-- C7 as stated fails on the line that always reads low: `Read` takes the
end-of-frame timeout with no bit received, `ErrorCheck` takes the
all-zero-header path, and the call returns with `was_sent = true`, header 3,
two payload bits and the incomplete flag set. -/
theorem C7_counterexample :
    (∀ t, lineHigh (fun _ => 0) 1 t = false) ∧
    Read 2004 (fun _ => 0) (Packet.new 1 2)
      = some (2004, { header := 3, data := 0, parity := false, pin_in := 1, pin_out := 2,
                      counter := 0, num_bits := 2, was_sent := true, incomplete := true }) := by
  have lo : ∀ t, lineHigh (fun _ => 0) (Packet.new 1 2).pin_in t = false := by
    intro t; simp [lineHigh]
  refine ⟨lo, ?_⟩
  rw [Read_low (fun _ => 0) (Packet.new 1 2) lo 2004 (by decide)]
  simp only [readFinish]
  rw [ErrorCheck_eq]
  decide

/-- C8, as the code has it.  All-zero-header path: for every packet state with
header 0 and an even bit count of at most 252, `ErrorCheck` increases the bit
count by exactly 2; it leaves the low two bits of the header equal to 11 when
the computed parity equals the stored parity bit, and equal to 01 when the two
differ. -/
theorem C8_zero_header (p : Packet) (hz : p.header = 0) (he : p.num_bits % 2 = 0)
    (hn : p.num_bits ≤ 252) :
    (ErrorCheck p).num_bits = p.num_bits + 2 ∧
    (CalcParity p = p.parity → (ErrorCheck p).header &&& 3 = 3) ∧
    (CalcParity p ≠ p.parity → (ErrorCheck p).header &&& 3 = 1) := by
  rw [ErrorCheck_eq, if_pos he]
  unfold evenCheck
  by_cases hm : CalcParity p = p.parity
  · have h1 : ¬ ((CalcParity p != p.parity) = true) := by simp [hm]
    rw [if_neg h1, if_pos hz]
    refine ⟨?_, ?_, ?_⟩
    · show (p.num_bits + 2) % 256 = p.num_bits + 2
      omega
    · intro _
      show (((p.header <<< 2) + 3) % 256) &&& 3 = 3
      rw [hz]; decide
    · intro h; exact absurd hm h
  · have h1 : (CalcParity p != p.parity) = true := by simp [hm]
    rw [if_pos h1]
    refine ⟨?_, ?_, ?_⟩
    · show (p.num_bits + 2) % 256 = p.num_bits + 2
      omega
    · intro h; exact absurd h hm
    · intro _
      show (((p.header <<< 2) + 1) % 256) &&& 3 = 1
      rw [hz]; decide

/-- Witness of C8: header 0, payload 1 on two bits, stored parity 0. -/
theorem C8_zero_header_witness :
    (zeroHeaderMismatch.header = 0 ∧ zeroHeaderMismatch.num_bits % 2 = 0 ∧
      zeroHeaderMismatch.num_bits ≤ 252) ∧
    ((ErrorCheck zeroHeaderMismatch).num_bits = zeroHeaderMismatch.num_bits + 2 ∧
    (CalcParity zeroHeaderMismatch = zeroHeaderMismatch.parity →
      (ErrorCheck zeroHeaderMismatch).header &&& 3 = 3) ∧
    (CalcParity zeroHeaderMismatch ≠ zeroHeaderMismatch.parity →
      (ErrorCheck zeroHeaderMismatch).header &&& 3 = 1)) :=
  ⟨by decide, C8_zero_header zeroHeaderMismatch (by decide) (by decide) (by decide)⟩

/-- C8 as stated fails: with header 0, two payload bits of value 1 and stored
parity 0 the parity-mismatch branch runs first and leaves the low two header
bits equal to 01; and with header 0 and bit count 254 the byte `num_bits`
wraps to 0. -/
theorem C8_counterexample :
    (zeroHeaderMismatch.header = 0 ∧ zeroHeaderMismatch.num_bits % 2 = 0 ∧
      (ErrorCheck zeroHeaderMismatch).header &&& 3 = 1 ∧
      (ErrorCheck zeroHeaderMismatch).num_bits = 4) ∧
    (zeroHeaderWrap.header = 0 ∧ zeroHeaderWrap.num_bits % 2 = 0 ∧
      (ErrorCheck zeroHeaderWrap).num_bits = 0) := by
  constructor
  · rw [ErrorCheck_eq]
    decide
  · refine ⟨rfl, by decide, ?_⟩
    rw [ErrorCheck_eq, if_pos (by decide)]
    unfold evenCheck
    split_ifs with h1 h2
    · rfl
    · rfl
    · exact absurd rfl h2

/-- C9, the code at the failing input: the frame of nine bits
1,0,0,0,0,0,0,0,1 decodes to header 1 with matching parity, `ErrorCheck`
accepts it, and the final bit count is 0, which is not at least 2. -/
theorem C9_nine_bit_frame :
    decode 1 2 nineBitFrame
      = { header := 1, data := 0, parity := true, pin_in := 1, pin_out := 2,
          counter := 9, num_bits := 0, was_sent := true, incomplete := false } ∧
    ¬ (2 ≤ (decode 1 2 nineBitFrame).num_bits) := by
  have e : decode 1 2 nineBitFrame
      = { header := 1, data := 0, parity := true, pin_in := 1, pin_out := 2,
          counter := 9, num_bits := 0, was_sent := true, incomplete := false } := by
    simp only [decode, readFinish]
    rw [ErrorCheck_eq]
    decide
  refine ⟨e, ?_⟩
  rw [e]
  decide

/-- C10.  The wait of `Send` for an idle bus: for a packet with non-zero
`num_bits` and a configured output line, `Send` transmits (returns with
`was_sent` set and the frame on the wire) when a run of `waitloops`
consecutive idle samples comes before every run of more than `maxloops`
consecutive busy samples; when a run of `maxloops + 1` consecutive busy
samples comes before every run of `waitloops` idle samples, in particular on a
line that is always busy, it returns with nothing sent and the packet, its
`was_sent` flag included, unchanged. -/
theorem C10_send_wait (p : Packet) (pind : Nat → Nat) (hn : p.num_bits ≠ 0)
    (ho : p.pin_out ≠ 0) :
    (∀ n, IdleRun pind p.pin_in n waitloops →
      (∀ m, BusyRun pind p.pin_in m (maxloops + 1) → n ≤ m) →
      ∀ fuel, n + waitloops < fuel →
        ∃ t, Send fuel pind p = some ({ p with was_sent := true }, sendFrame p, t)) ∧
    (∀ m, BusyRun pind p.pin_in m (maxloops + 1) →
      (∀ n, IdleRun pind p.pin_in n waitloops → m ≤ n) →
      ∀ fuel, m + (maxloops + 1) < fuel →
        ∃ t, Send fuel pind p = some (p, [], t)) ∧
    ((∀ t, lineHigh pind p.pin_in t = true) →
      ∀ fuel, maxloops + 1 < fuel →
        ∃ t r, Send fuel pind p = some (r, [], t) ∧ r = p ∧
          (p.was_sent = false → Sent r = false)) := by
  refine ⟨?_, ?_, ?_⟩
  · intro n h1 h2 fuel hf
    exact Send_of_idle p pind hn ho n h1 h2 fuel hf
  · intro m h1 h2 fuel hf
    exact Send_of_busy p pind hn ho m h1 h2 fuel hf
  · intro hb fuel hf
    obtain ⟨t, e⟩ := Send_of_busy p pind hn ho 0 (fun i _ _ => hb i) (fun n _ => Nat.zero_le n)
      fuel (by omega)
    refine ⟨t, p, e, rfl, ?_⟩
    intro h
    simp [Sent, h]

/-- Witness of C10: the sample packet on the line that always reads 0 (idle)
and on the line that always reads 1 (busy). -/
theorem C10_send_wait_witness :
    (samplePacket.num_bits ≠ 0 ∧ samplePacket.pin_out ≠ 0) ∧
    (∃ t, Send 15001 (fun _ => 0) samplePacket
      = some ({ samplePacket with was_sent := true }, sendFrame samplePacket, t)) ∧
    (∃ t, Send 2002 (fun _ => 1) samplePacket = some (samplePacket, [], t)) :=
  ⟨⟨by decide, by decide⟩,
    (C10_send_wait samplePacket (fun _ => 0) (by decide) (by decide)).1 0
      (by intro i _ _; simp [lineHigh])
      (by intro m _; exact Nat.zero_le m) 15001 (by decide),
    (C10_send_wait samplePacket (fun _ => 1) (by decide) (by decide)).2.1 0
      (by intro i _ _; simp [lineHigh, samplePacket])
      (by intro n _; exact Nat.zero_le n) 2002 (by decide)⟩

/-! ## The five-argument `Send` -/

/-- C11, as the code has it.  `Send(priority, address, data1, data2, data3)` is
the composition of `Set` then `Send()` for every packet state whose
output-line member is not zero and every argument tuple: same final state,
same bits sent.  When the output-line member is zero the call does nothing:
`Set` is not called, the packet is unchanged and no bit is sent. -/
theorem C11_send_bytes (fuel : Nat) (pind : Nat → Nat) (p : Packet)
    (priority address data1 data2 data3 : Nat) :
    (p.pin_out ≠ 0 →
      SendBytes fuel pind p priority address data1 data2 data3
        = setThenSend fuel pind p priority address data1 data2 data3) ∧
    (p.pin_out = 0 →
      SendBytes fuel pind p priority address data1 data2 data3 = some (p, [], 0)) := by
  constructor
  · intro h
    unfold SendBytes setThenSend
    rw [if_pos h]
  · intro h
    unfold SendBytes
    rw [if_neg (by simp [h])]

/-- Witness of C11: the sample packet (output line 2) on an idle line, and a
fresh packet with output line 0. -/
theorem C11_send_bytes_witness :
    (samplePacket.pin_out ≠ 0 ∧ (Packet.new 1 0).pin_out = 0) ∧
    SendBytes 15001 (fun _ => 0) samplePacket 1 5 170 0 0
      = setThenSend 15001 (fun _ => 0) samplePacket 1 5 170 0 0 ∧
    SendBytes 15001 (fun _ => 0) (Packet.new 1 0) 1 5 170 0 0
      = some (Packet.new 1 0, [], 0) :=
  ⟨⟨by decide, by decide⟩,
    (C11_send_bytes 15001 (fun _ => 0) samplePacket 1 5 170 0 0).1 (by decide),
    (C11_send_bytes 15001 (fun _ => 0) (Packet.new 1 0) 1 5 170 0 0).2 (by decide)⟩

/-- C11 as stated fails on a packet whose output-line member is 0: the
five-argument `Send` leaves the fresh packet as it is, while `Set` followed by
`Send()` leaves header 21, payload 170, eight payload bits and parity 1. -/
theorem C11_counterexample :
    SendBytes 1 (fun _ => 0) (Packet.new 1 0) 1 5 170 0 0 = some (Packet.new 1 0, [], 0) ∧
    setThenSend 1 (fun _ => 0) (Packet.new 1 0) 1 5 170 0 0
      = some ({ header := 21, data := 170, parity := true, pin_in := 1, pin_out := 0,
                counter := 0, num_bits := 8, was_sent := false, incomplete := false },
              [], 0) ∧
    SendBytes 1 (fun _ => 0) (Packet.new 1 0) 1 5 170 0 0
      ≠ setThenSend 1 (fun _ => 0) (Packet.new 1 0) 1 5 170 0 0 := by
  decide

/-! ## The branches of `ErrorCheck` -/

/-- C12, as the code has it.  Even-count correction step: when the bit count
is even and the computed parity differs from the stored parity bit, or they
agree and the header is all-zero, `ErrorCheck` shifts the payload left by two
and puts the two high-order bits of the header into its two low-order
positions (32-bit arithmetic), shifts the header left by two (8-bit
arithmetic) with new low bits 01 in the mismatch case and 11 in the
all-zero-header case, adds 2 to the bit count (8-bit arithmetic) and sets the
incomplete flag; nothing else changes. -/
theorem C12_even_correction (p : Packet) (he : p.num_bits % 2 = 0) (hh : p.header < 256) :
    (CalcParity p ≠ p.parity →
      ErrorCheck p
        = { p with data := (4 * p.data + p.header / 64) % 2 ^ 32,
                   header := (4 * p.header + 1) % 256,
                   num_bits := (p.num_bits + 2) % 256,
                   incomplete := true } ∧
      (ErrorCheck p).header % 4 = 1 ∧ (ErrorCheck p).header / 4 = p.header % 64 ∧
      (ErrorCheck p).data % 4 = p.header / 64 ∧
      (ErrorCheck p).data / 4 = p.data % 2 ^ 30) ∧
    (CalcParity p = p.parity → p.header = 0 →
      ErrorCheck p
        = { p with data := (4 * p.data + p.header / 64) % 2 ^ 32,
                   header := (4 * p.header + 3) % 256,
                   num_bits := (p.num_bits + 2) % 256,
                   incomplete := true } ∧
      (ErrorCheck p).header = 3 ∧ (ErrorCheck p).data % 4 = 0 ∧
      (ErrorCheck p).data / 4 = p.data % 2 ^ 30) := by
  rw [ErrorCheck_eq, if_pos he]
  unfold evenCheck
  constructor
  · intro hm
    have h1 : (CalcParity p != p.parity) = true := by simp [hm]
    rw [if_pos h1]
    have e : ({ p with data := ((p.data <<< 2) + (p.header >>> 6)) % ulongMod,
                       header := ((p.header <<< 2) + 1) % 256,
                       num_bits := (p.num_bits + 2) % 256,
                       incomplete := true } : Packet)
        = { p with data := (4 * p.data + p.header / 64) % 2 ^ 32,
                   header := (4 * p.header + 1) % 256,
                   num_bits := (p.num_bits + 2) % 256,
                   incomplete := true } := by
      simp only [Nat.shiftLeft_eq, Nat.shiftRight_eq_div_pow, ulongMod]
      norm_num [Nat.mul_comm]
    rw [e]
    refine ⟨rfl, ?_, ?_, ?_, ?_⟩
    · show (4 * p.header + 1) % 256 % 4 = 1
      omega
    · show (4 * p.header + 1) % 256 / 4 = p.header % 64
      omega
    · show (4 * p.data + p.header / 64) % 2 ^ 32 % 4 = p.header / 64
      omega
    · show (4 * p.data + p.header / 64) % 2 ^ 32 / 4 = p.data % 2 ^ 30
      omega
  · intro hm hz
    have h1 : ¬ ((CalcParity p != p.parity) = true) := by simp [hm]
    rw [if_neg h1, if_pos hz]
    have e : ({ p with data := ((p.data <<< 2) + (p.header >>> 6)) % ulongMod,
                       header := ((p.header <<< 2) + 3) % 256,
                       num_bits := (p.num_bits + 2) % 256,
                       incomplete := true } : Packet)
        = { p with data := (4 * p.data + p.header / 64) % 2 ^ 32,
                   header := (4 * p.header + 3) % 256,
                   num_bits := (p.num_bits + 2) % 256,
                   incomplete := true } := by
      simp only [Nat.shiftLeft_eq, Nat.shiftRight_eq_div_pow, ulongMod]
      norm_num [Nat.mul_comm]
    rw [e]
    refine ⟨rfl, ?_, ?_, ?_⟩
    · show (4 * p.header + 3) % 256 = 3
      omega
    · show (4 * p.data + p.header / 64) % 2 ^ 32 % 4 = 0
      omega
    · show (4 * p.data + p.header / 64) % 2 ^ 32 / 4 = p.data % 2 ^ 30
      omega

/-- Witness of C12: header 10000001, payload 01 on two bits, stored parity 0
against computed parity 1. -/
theorem C12_even_correction_witness :
    (mismatchPacket.num_bits % 2 = 0 ∧ mismatchPacket.header < 256 ∧
      CalcParity mismatchPacket ≠ mismatchPacket.parity) ∧
    (ErrorCheck mismatchPacket
        = { mismatchPacket with
              data := (4 * mismatchPacket.data + mismatchPacket.header / 64) % 2 ^ 32,
              header := (4 * mismatchPacket.header + 1) % 256,
              num_bits := (mismatchPacket.num_bits + 2) % 256,
              incomplete := true } ∧
      (ErrorCheck mismatchPacket).header % 4 = 1 ∧
      (ErrorCheck mismatchPacket).header / 4 = mismatchPacket.header % 64 ∧
      (ErrorCheck mismatchPacket).data % 4 = mismatchPacket.header / 64 ∧
      (ErrorCheck mismatchPacket).data / 4 = mismatchPacket.data % 2 ^ 30) ∧
    ((Packet.new 1 2).num_bits % 2 = 0 ∧ (Packet.new 1 2).header < 256 ∧
      CalcParity (Packet.new 1 2) = (Packet.new 1 2).parity ∧ (Packet.new 1 2).header = 0) ∧
    (ErrorCheck (Packet.new 1 2)).header = 3 :=
  ⟨by decide, (C12_even_correction mismatchPacket (by decide) (by decide)).1 (by decide),
    by decide,
    ((C12_even_correction (Packet.new 1 2) (by decide) (by decide)).2 (by decide)
      (by decide)).2.1⟩

/-- C12 as stated fails on header 10000001, payload 01 on two bits with a
parity mismatch: the code gives payload 0110 (the payload shifted up, the high
header bits 10 below it), while moving the low header bits 01 above the
payload gives 0101. -/
theorem C12_counterexample :
    (mismatchPacket.num_bits % 2 = 0 ∧ CalcParity mismatchPacket ≠ mismatchPacket.parity) ∧
    (ErrorCheck mismatchPacket).data = 6 ∧
    (evenStepSpec mismatchPacket 1).data = 5 ∧
    ErrorCheck mismatchPacket ≠ evenStepSpec mismatchPacket 1 := by
  rw [ErrorCheck_eq]
  decide

theorem readFinish_eq (p : Packet) :
    readFinish p = { ErrorCheck (readExtract p) with was_sent := true } := rfl

theorem AddBit_counter_lt (p : Packet) (b : Bool) : (AddBit p b).counter < 256 := by
  unfold AddBit
  split_ifs
  · show (p.counter + 1) % 256 < 256
    omega
  · show (p.counter + 1) % 256 < 256
    omega

theorem addBits_counter_lt (p : Packet) (l : List Bool) (h : p.counter < 256) :
    (addBits p l).counter < 256 := by
  induction l using List.reverseRecOn with
  | nil => simpa [addBits] using h
  | append_singleton l b _ =>
    rw [addBits_snoc]
    exact AddBit_counter_lt _ _

/-- What `ErrorCheck` does to a state it does not accept: the bit count grows
and the incomplete flag is set. -/
theorem ErrorCheck_changes (p : Packet) (hn : p.num_bits ≤ 252)
    (hna : ¬ (p.num_bits % 2 = 0 ∧ CalcParity p = p.parity ∧ p.header ≠ 0)) :
    p.num_bits < (ErrorCheck p).num_bits ∧ (ErrorCheck p).incomplete = true := by
  have hev : ∀ q : Packet, q.num_bits ≤ 253 →
      q.num_bits ≤ (evenCheck q).num_bits := by
    intro q hq
    unfold evenCheck
    split_ifs
    · show q.num_bits ≤ (q.num_bits + 2) % 256
      omega
    · show q.num_bits ≤ (q.num_bits + 2) % 256
      omega
    · exact le_refl _
  rw [ErrorCheck_eq]
  by_cases he : p.num_bits % 2 = 0
  · rw [if_pos he]
    unfold evenCheck
    by_cases hm : CalcParity p = p.parity
    · have hz : p.header = 0 := by
        by_contra hz
        exact hna ⟨he, hm, hz⟩
      have h1 : ¬ ((CalcParity p != p.parity) = true) := by simp [hm]
      rw [if_neg h1, if_pos hz]
      refine ⟨?_, rfl⟩
      show p.num_bits < (p.num_bits + 2) % 256
      omega
    · have h1 : (CalcParity p != p.parity) = true := by simp [hm]
      rw [if_pos h1]
      refine ⟨?_, rfl⟩
      show p.num_bits < (p.num_bits + 2) % 256
      omega
  · rw [if_neg he]
    refine ⟨?_, rfl⟩
    split_ifs
    · show p.num_bits < (p.num_bits + 1) % 256
      omega
    · have h1 : (oddShift p).num_bits = p.num_bits + 1 := by
        show (p.num_bits + 1) % 256 = p.num_bits + 1
        omega
      have h2 := hev (oddShift p) (by omega)
      show p.num_bits < (evenCheck (oddShift p)).num_bits
      omega

theorem ErrorCheck_accepts (p : Packet)
    (ha : p.num_bits % 2 = 0 ∧ CalcParity p = p.parity ∧ p.header ≠ 0) :
    ErrorCheck p = p := by
  obtain ⟨he, hm, hz⟩ := ha
  rw [ErrorCheck_eq, if_pos he]
  unfold evenCheck
  have h1 : ¬ ((CalcParity p != p.parity) = true) := by simp [hm]
  rw [if_neg h1, if_neg hz]

/-- C13.  Acceptance and the incomplete flag: for every packet state with bit
count at most 252 and the incomplete flag clear, `ErrorCheck` leaves header,
payload, bit count, parity and the incomplete flag all unchanged if and only
if the bit count is even, `CalcParity()` equals the stored parity bit and the
header is not zero; in every other case it changes the frame (the bit count
grows) and sets the incomplete flag.  So after the decode of any received bit
sequence into a fresh packet, `Incomplete()` is true exactly when `ErrorCheck`
modified the frame that the bit count and parity extraction had produced. -/
theorem C13_acceptance (p : Packet) (rx tx : Nat) (bits : List Bool)
    (hn : p.num_bits ≤ 252) (hi : p.incomplete = false) :
    (((ErrorCheck p).header = p.header ∧ (ErrorCheck p).data = p.data ∧
        (ErrorCheck p).num_bits = p.num_bits ∧ (ErrorCheck p).parity = p.parity ∧
        (ErrorCheck p).incomplete = p.incomplete) ↔
      (p.num_bits % 2 = 0 ∧ CalcParity p = p.parity ∧ p.header ≠ 0)) ∧
    (¬ (p.num_bits % 2 = 0 ∧ CalcParity p = p.parity ∧ p.header ≠ 0) →
      ((ErrorCheck p).header ≠ p.header ∨ (ErrorCheck p).data ≠ p.data ∨
        (ErrorCheck p).num_bits ≠ p.num_bits) ∧ (ErrorCheck p).incomplete = true) ∧
    ((ErrorCheck p).incomplete = true ↔
      ¬ (p.num_bits % 2 = 0 ∧ CalcParity p = p.parity ∧ p.header ≠ 0)) ∧
    (Incomplete (decode rx tx bits) = true ↔
      ((decode rx tx bits).header ≠ (readExtract (addBits (Packet.new rx tx) bits)).header ∨
       (decode rx tx bits).data ≠ (readExtract (addBits (Packet.new rx tx) bits)).data ∨
       (decode rx tx bits).num_bits
         ≠ (readExtract (addBits (Packet.new rx tx) bits)).num_bits)) := by
  refine ⟨⟨?_, ?_⟩, ?_, ⟨?_, ?_⟩, ?_⟩
  · rintro ⟨_, _, h3, _, _⟩
    by_contra hna
    have := (ErrorCheck_changes p hn hna).1
    omega
  · intro ha
    rw [ErrorCheck_accepts p ha]
    exact ⟨rfl, rfl, rfl, rfl, rfl⟩
  · intro hna
    obtain ⟨h1, h2⟩ := ErrorCheck_changes p hn hna
    exact ⟨Or.inr (Or.inr (by omega)), h2⟩
  · intro h ha
    rw [ErrorCheck_accepts p ha, hi] at h
    exact Bool.false_ne_true h
  · intro hna
    exact (ErrorCheck_changes p hn hna).2
  · have hc : (addBits (Packet.new rx tx) bits).counter < 256 :=
      addBits_counter_lt _ _ (by simp [Packet.new])
    obtain ⟨_, _, _, _, _, f6⟩ := addBits_fixed (Packet.new rx tx) bits
    unfold decode
    rw [readFinish_eq]
    generalize addBits (Packet.new rx tx) bits = q at hc f6
    have hq : (readExtract q).num_bits ≤ 252 := by
      show (if q.counter > 8 then q.counter - 9 else 0) ≤ 252
      split_ifs <;> omega
    have hqi : (readExtract q).incomplete = false := by
      show q.incomplete = false
      rw [f6]; rfl
    show (ErrorCheck (readExtract q)).incomplete = true ↔
      ((ErrorCheck (readExtract q)).header ≠ (readExtract q).header ∨
       (ErrorCheck (readExtract q)).data ≠ (readExtract q).data ∨
       (ErrorCheck (readExtract q)).num_bits ≠ (readExtract q).num_bits)
    by_cases ha : (readExtract q).num_bits % 2 = 0 ∧
        CalcParity (readExtract q) = (readExtract q).parity ∧ (readExtract q).header ≠ 0
    · rw [ErrorCheck_accepts _ ha, hqi]
      simp
    · obtain ⟨h1, h2⟩ := ErrorCheck_changes _ hq ha
      rw [h2]
      simp only [true_iff]
      exact Or.inr (Or.inr (by omega))

/-- Witness of C13: the sample packet, which `ErrorCheck` accepts. -/
theorem C13_acceptance_witness :
    (samplePacket.num_bits ≤ 252 ∧ samplePacket.incomplete = false) ∧
    ((((ErrorCheck samplePacket).header = samplePacket.header ∧
        (ErrorCheck samplePacket).data = samplePacket.data ∧
        (ErrorCheck samplePacket).num_bits = samplePacket.num_bits ∧
        (ErrorCheck samplePacket).parity = samplePacket.parity ∧
        (ErrorCheck samplePacket).incomplete = samplePacket.incomplete) ↔
      (samplePacket.num_bits % 2 = 0 ∧ CalcParity samplePacket = samplePacket.parity ∧
        samplePacket.header ≠ 0)) ∧
    (¬ (samplePacket.num_bits % 2 = 0 ∧ CalcParity samplePacket = samplePacket.parity ∧
        samplePacket.header ≠ 0) →
      ((ErrorCheck samplePacket).header ≠ samplePacket.header ∨
        (ErrorCheck samplePacket).data ≠ samplePacket.data ∨
        (ErrorCheck samplePacket).num_bits ≠ samplePacket.num_bits) ∧
      (ErrorCheck samplePacket).incomplete = true) ∧
    ((ErrorCheck samplePacket).incomplete = true ↔
      ¬ (samplePacket.num_bits % 2 = 0 ∧ CalcParity samplePacket = samplePacket.parity ∧
        samplePacket.header ≠ 0)) ∧
    (Incomplete (decode 1 2 nineBitFrame) = true ↔
      ((decode 1 2 nineBitFrame).header
          ≠ (readExtract (addBits (Packet.new 1 2) nineBitFrame)).header ∨
       (decode 1 2 nineBitFrame).data
          ≠ (readExtract (addBits (Packet.new 1 2) nineBitFrame)).data ∨
       (decode 1 2 nineBitFrame).num_bits
         ≠ (readExtract (addBits (Packet.new 1 2) nineBitFrame)).num_bits))) :=
  ⟨by decide, C13_acceptance samplePacket 1 2 nineBitFrame (by decide) (by decide)⟩

theorem ErrorCheckDepth_even (p : Packet) (d : Nat) (he : p.num_bits % 2 = 0) :
    ErrorCheckDepth (d + 1) p = some (ErrorCheck p) := by
  rw [ErrorCheck_eq, if_pos he]
  unfold ErrorCheckDepth evenCheck
  simp only [he, if_true]
  split_ifs <;> rfl

/-- C14.  `ErrorCheck` terminates on every packet state and calls itself at
most once: two activations are enough for every state, one is enough when the
bit count is even (the even branch does not recurse), and the recursive call
of the odd branch is made on a state whose bit count is even, also when the
byte has wrapped from 255 to 0. -/
theorem C14_error_check_depth (p : Packet) :
    (∀ d, 2 ≤ d → ErrorCheckDepth d p = some (ErrorCheck p)) ∧
    (p.num_bits % 2 = 0 → ErrorCheckDepth 1 p = some (ErrorCheck p)) ∧
    (p.num_bits % 2 ≠ 0 → (oddShift p).num_bits % 2 = 0) ∧
    (p.num_bits % 2 ≠ 0 → CalcParity p = p.parity →
      ErrorCheckDepth 1 p = none ∧
      ErrorCheck p = { ErrorCheck (oddShift p) with incomplete := true }) := by
  have hodd : p.num_bits % 2 ≠ 0 → (oddShift p).num_bits % 2 = 0 := by
    intro h
    show (p.num_bits + 1) % 256 % 2 = 0
    omega
  refine ⟨?_, ?_, hodd, ?_⟩
  · intro d hd
    obtain ⟨d, rfl⟩ : ∃ e, d = e + 2 := ⟨d - 2, by omega⟩
    by_cases he : p.num_bits % 2 = 0
    · exact ErrorCheckDepth_even p (d + 1) he
    · have h2 := ErrorCheckDepth_even (oddShift p) d (hodd he)
      rw [ErrorCheck_eq (oddShift p), if_pos (hodd he)] at h2
      rw [ErrorCheck_eq, if_neg he]
      unfold ErrorCheckDepth
      simp only [he, if_false]
      split_ifs with hm
      · rfl
      · show (match ErrorCheckDepth (d + 1) (oddShift p) with
          | none => none
          | some p2 => some { p2 with incomplete := true }) = _
        rw [h2]
  · intro he
    exact ErrorCheckDepth_even p 0 he
  · intro he hm
    have h1 : ¬ ((CalcParity p != p.parity) = true) := by simp [hm]
    constructor
    · unfold ErrorCheckDepth
      simp only [he, if_false, h1]
      rfl
    · rw [ErrorCheck_eq p, if_neg he, if_neg h1, ErrorCheck_eq (oddShift p),
        if_pos (hodd he)]

/-- Witness of C14: a state with three payload bits and matching parity, on
which the odd branch recurses, and the sample packet with eight. -/
theorem C14_error_check_depth_witness :
    (oddPacket.num_bits % 2 ≠ 0 ∧ CalcParity oddPacket = oddPacket.parity ∧
      samplePacket.num_bits % 2 = 0) ∧
    ErrorCheckDepth 2 oddPacket = some (ErrorCheck oddPacket) ∧
    (oddShift oddPacket).num_bits % 2 = 0 ∧
    ErrorCheckDepth 1 oddPacket = none ∧
    ErrorCheckDepth 1 samplePacket = some (ErrorCheck samplePacket) :=
  ⟨by decide, (C14_error_check_depth oddPacket).1 2 (le_refl 2),
    (C14_error_check_depth oddPacket).2.2.1 (by decide),
    ((C14_error_check_depth oddPacket).2.2.2 (by decide) (by decide)).1,
    (C14_error_check_depth samplePacket).2.1 (by decide)⟩

/-! ## How long `Read` and `Send` poll the line -/

theorem readStart_returns (pind : Nat → Nat) (pin_in n : Nat)
    (hlow : lineHigh pind pin_in n = false) :
    ∀ fuel t loops, loops ≤ maxloops → maxloops - loops < fuel → t ≤ n →
      ∃ t1 l1, readStart pind pin_in fuel t loops = some (t1, l1) ∧
        t1 ≤ t + (maxloops + 1 - loops) ∧ (l1 ≤ maxloops → t1 ≤ n + 1) := by
  intro fuel
  induction fuel with
  | zero => intro t loops _ h; omega
  | succ fuel ih =>
    intro t loops hl hf htn
    unfold readStart
    simp only [maxloops, ulongMod] at *
    by_cases hh : lineHigh pind pin_in t = true
    · rw [if_pos hh]
      have htn2 : t < n := by
        by_contra hge
        have : t = n := by omega
        rw [this, hlow] at hh
        exact Bool.false_ne_true hh
      by_cases hc : loops < 2000
      · rw [if_pos hc]
        have e : (loops + 1) % 2 ^ 32 = loops + 1 := by omega
        rw [e]
        obtain ⟨t1, l1, e1, b1, b2⟩ := ih (t + 1) (loops + 1) (by omega) (by omega) (by omega)
        exact ⟨t1, l1, e1, by omega, b2⟩
      · rw [if_neg hc]
        have e : (loops + 1) % 2 ^ 32 = loops + 1 := by omega
        rw [e]
        refine ⟨t + 1, loops + 1, rfl, by omega, ?_⟩
        intro h
        omega
    · rw [if_neg hh]
      refine ⟨t + 1, loops, rfl, by omega, ?_⟩
      intro _
      omega

theorem readGap_done (pind : Nat → Nat) (pin_in fuel t loops : Nat) :
    readGap pind pin_in (fuel + 1) t loops false = some (t + 1, loops, false) := by
  unfold readGap
  simp

theorem readGap_returns (pind : Nat → Nat) (pin_in n : Nat)
    (hidle : IdleRun pind pin_in n (maxloops + 3)) :
    ∀ fuel t loops, n + (maxloops + 4) - t < fuel →
      t ≤ n + 1 + loops → t ≤ n + (maxloops + 2) →
      ∃ t1 l1 k1, readGap pind pin_in fuel t loops true = some (t1, l1, k1) ∧ t < t1 ∧
        (k1 = true → t1 ≤ n) ∧ t1 ≤ n + (maxloops + 4) := by
  intro fuel
  induction fuel with
  | zero => intro t loops h; omega
  | succ fuel ih =>
    intro t loops hf h1 h2
    unfold readGap
    simp only [maxloops, ulongMod] at *
    by_cases hh : lineHigh pind pin_in t = true
    · have htn : t < n := by
        by_contra hge
        have := hidle t (by omega) (by omega)
        rw [this] at hh
        exact Bool.false_ne_true hh
      simp only [hh, Bool.not_true, Bool.false_and, Bool.false_eq_true, if_false]
      refine ⟨t + 1, loops, true, rfl, by omega, ?_, by omega⟩
      intro _
      omega
    · have hh2 : lineHigh pind pin_in t = false := by simpa using hh
      simp only [hh2, Bool.not_false, Bool.and_self, if_true]
      by_cases hc : loops > 2000
      · rw [if_pos hc]
        obtain ⟨f2, rfl⟩ : ∃ f2, fuel = f2 + 1 := ⟨fuel - 1, by omega⟩
        rw [readGap_done]
        refine ⟨t + 1 + 1, _, false, rfl, by omega, ?_, by omega⟩
        intro h
        exact absurd h Bool.false_ne_true
      · rw [if_neg hc]
        have e : (loops + 1) % 2 ^ 32 = loops + 1 := by omega
        rw [e]
        obtain ⟨t1, l1, k1, e1, b1, b2, b3⟩ :=
          ih (t + 1) (loops + 1) (by omega) (by omega) (by omega)
        exact ⟨t1, l1, k1, e1, by omega, b2, b3⟩

theorem readPulse_returns (pind : Nat → Nat) (pin_in n : Nat)
    (hlow : lineHigh pind pin_in n = false) :
    ∀ fuel t loops, n - t < fuel → t ≤ n →
      ∃ t1 l1, readPulse pind pin_in fuel t loops = some (t1, l1) ∧ t < t1 ∧ t1 ≤ n + 1 := by
  intro fuel
  induction fuel with
  | zero => intro t loops h; omega
  | succ fuel ih =>
    intro t loops hf htn
    unfold readPulse
    by_cases hh : lineHigh pind pin_in t = true
    · rw [if_pos hh]
      have htn2 : t < n := by
        by_contra hge
        have : t = n := by omega
        rw [this, hlow] at hh
        exact Bool.false_ne_true hh
      obtain ⟨t1, l1, e1, b1, b2⟩ := ih (t + 1) ((loops + 1) % ulongMod) (by omega) (by omega)
      exact ⟨t1, l1, e1, by omega, b2⟩
    · rw [if_neg hh]
      exact ⟨t + 1, loops, rfl, by omega, by omega⟩

theorem readBits_returns (pind : Nat → Nat) (pin_in n : Nat)
    (hidle : IdleRun pind pin_in n (maxloops + 3)) :
    ∀ fuel t loops (p : Packet), p.pin_in = pin_in → t ≤ n + 1 →
      (n + 2 - t) + (n + (maxloops + 5)) ≤ fuel →
      ∃ t1 p1, readBits pind fuel t loops true p = some (t1, p1) ∧
        t1 ≤ n + (maxloops + 4) := by
  have hlow : lineHigh pind pin_in n = false := hidle n (le_refl _) (by simp [maxloops])
  intro fuel
  induction fuel with
  | zero => intro t loops p _ _ h; simp only [maxloops] at h; omega
  | succ fuel ih =>
    intro t loops p hp ht hf
    unfold readBits
    simp only [if_true]
    rw [hp]
    obtain ⟨t1, l1, k1, e1, b1, b2, b3⟩ :=
      readGap_returns pind pin_in n hidle fuel t loops (by simp only [maxloops] at *; omega)
        (by omega) (by simp only [maxloops]; omega)
    rw [e1]
    cases k1 with
    | false =>
      simp only [Bool.false_eq_true, if_false]
      obtain ⟨f2, rfl⟩ : ∃ f2, fuel = f2 + 1 :=
        ⟨fuel - 1, by simp only [maxloops] at hf; omega⟩
      refine ⟨t1, p, ?_, b3⟩
      unfold readBits
      simp
    | true =>
      simp only [if_true]
      have ht1 : t1 ≤ n := b2 rfl
      obtain ⟨t2, l2, e2, c1, c2⟩ :=
        readPulse_returns pind pin_in n hlow fuel t1 0 (by simp only [maxloops] at hf; omega)
          ht1
      rw [e2]
      simp only
      have hpin : ∀ b, (AddBit p b).pin_in = pin_in := by
        intro b
        rw [(AddBit_fixed p b).2.1, hp]
      have hpin2 : (if l2 < 500 then AddBit p false else AddBit p true).pin_in = pin_in := by
        split_ifs
        · exact hpin false
        · exact hpin true
      exact ih t2 l2 _ hpin2 c2 (by omega)

/-- On a line that shows `maxloops + 3` consecutive low samples from sample
`n` on, `Read` returns after at most `n + maxloops + 4` samples. -/
theorem Read_returns (pind : Nat → Nat) (p : Packet) (n : Nat)
    (hidle : IdleRun pind p.pin_in n (maxloops + 3)) (fuel : Nat)
    (hf : 2 * n + (maxloops + 8) ≤ fuel) :
    ∃ t r, Read fuel pind p = some (t, r) ∧ t ≤ n + (maxloops + 4) := by
  have hlow : lineHigh pind p.pin_in n = false := hidle n (le_refl _) (by simp [maxloops])
  unfold Read
  obtain ⟨t1, l1, e1, b1, b2⟩ := readStart_returns pind p.pin_in n hlow fuel 0 0
    (Nat.zero_le _) (by simp only [maxloops] at *; omega) (Nat.zero_le _)
  rw [e1]
  simp only
  by_cases hc : l1 > maxloops
  · rw [if_pos hc]
    exact ⟨t1, p, rfl, by simp only [maxloops] at *; omega⟩
  · rw [if_neg hc]
    obtain ⟨t2, p2, e2, c2⟩ := readBits_returns pind p.pin_in n hidle fuel t1 l1 p rfl
      (b2 (by omega)) (by simp only [maxloops] at *; omega)
    rw [e2]
    exact ⟨t2, readFinish p2, rfl, c2⟩

theorem sendWait_returns_idle (pind : Nat → Nat) (pin_in n : Nat)
    (hidle : IdleRun pind pin_in n waitloops) :
    ∀ fuel t loops tries, n + waitloops - t < fuel →
      loops ≤ waitloops → t - n ≤ loops → tries ≤ maxloops →
      ∃ b t1, sendWait pind pin_in fuel t loops tries = some (b, t1) ∧
        t1 ≤ n + waitloops := by
  intro fuel
  induction fuel with
  | zero => intro t loops tries h; omega
  | succ fuel ih =>
    intro t loops tries hf hl hln ht
    unfold sendWait
    simp only [waitloops, maxloops, uintMod] at *
    by_cases hc : loops < 15000
    · rw [if_pos hc]
      by_cases hh : lineHigh pind pin_in t = true
      · have htn : t < n := by
          by_contra hge
          have := hidle t (by omega) (by omega)
          rw [this] at hh
          exact Bool.false_ne_true hh
        simp only [hh, if_true]
        have e : (tries + 1) % 2 ^ 16 = tries + 1 := by omega
        rw [e]
        by_cases hx : tries + 1 > 2000
        · rw [if_pos hx]
          exact ⟨false, t + 1, rfl, by omega⟩
        · rw [if_neg hx]
          exact ih (t + 1) 0 (tries + 1) (by omega) (by omega) (by omega) (by omega)
      · have hh2 : lineHigh pind pin_in t = false := by simpa using hh
        simp only [hh2, Bool.false_eq_true, if_false]
        have e : (loops + 1) % 2 ^ 16 = loops + 1 := by omega
        rw [e, if_neg (by omega)]
        exact ih (t + 1) (loops + 1) 0 (by omega) (by omega) (by omega) (by omega)
    · rw [if_neg hc]
      exact ⟨true, t, rfl, by omega⟩

theorem sendWait_returns_busy (pind : Nat → Nat) (pin_in m : Nat)
    (hbusy : BusyRun pind pin_in m (maxloops + 1)) :
    ∀ fuel t loops tries, m + (maxloops + 1) - t < fuel →
      tries ≤ maxloops → t - m ≤ tries → loops ≤ waitloops →
      ∃ b t1, sendWait pind pin_in fuel t loops tries = some (b, t1) ∧
        t1 ≤ m + (maxloops + 1) := by
  intro fuel
  induction fuel with
  | zero => intro t loops tries h; omega
  | succ fuel ih =>
    intro t loops tries hf ht htm hl
    unfold sendWait
    simp only [waitloops, maxloops, uintMod] at *
    by_cases hc : loops < 15000
    · rw [if_pos hc]
      by_cases hh : lineHigh pind pin_in t = true
      · simp only [hh, if_true]
        have e : (tries + 1) % 2 ^ 16 = tries + 1 := by omega
        rw [e]
        by_cases hx : tries + 1 > 2000
        · rw [if_pos hx]
          exact ⟨false, t + 1, rfl, by omega⟩
        · rw [if_neg hx]
          exact ih (t + 1) 0 (tries + 1) (by omega) (by omega) (by omega) (by omega)
      · have htm2 : t < m := by
          by_contra hge
          exact hh (hbusy t (by omega) (by omega))
        have hh2 : lineHigh pind pin_in t = false := by simpa using hh
        simp only [hh2, Bool.false_eq_true, if_false]
        have e : (loops + 1) % 2 ^ 16 = loops + 1 := by omega
        rw [e, if_neg (by omega)]
        exact ih (t + 1) (loops + 1) 0 (by omega) (by omega) (by omega) (by omega)
    · rw [if_neg hc]
      exact ⟨true, t, rfl, by omega⟩

theorem Send_returns_of_sendWait (p : Packet) (pind : Nat → Nat) (fuel bound : Nat)
    (h : ∃ b t1, sendWait pind p.pin_in fuel 0 0 0 = some (b, t1) ∧ t1 ≤ bound) :
    ∃ r w t, Send fuel pind p = some (r, w, t) ∧ t ≤ bound := by
  obtain ⟨b, t1, e, hb⟩ := h
  unfold Send
  by_cases hc : p.num_bits ≠ 0 ∧ p.pin_out ≠ 0
  · rw [if_pos hc, e]
    cases b with
    | false => exact ⟨p, [], t1, rfl, hb⟩
    | true => exact ⟨_, _, t1, rfl, hb⟩
  · rw [if_neg hc]
    exact ⟨p, [], 0, rfl, Nat.zero_le _⟩

theorem readPulse_stuck (fuel : Nat) :
    ∀ t loops, 1 ≤ t → readPulse stuckHighLine 1 fuel t loops = none := by
  induction fuel with
  | zero => intro t loops _; rfl
  | succ fuel ih =>
    intro t loops ht
    unfold readPulse
    have hh : lineHigh stuckHighLine 1 t = true := by
      have : ¬ t = 0 := by omega
      simp [lineHigh, stuckHighLine, this]
    rw [if_pos hh]
    exact ih (t + 1) _ (by omega)

theorem sendWait_alternating (fuel : Nat) :
    ∀ t loops tries, loops ≤ 1 → tries ≤ 1 → (t % 2 = 1 → tries = 0) →
      (t % 2 = 0 → loops = 0) →
      sendWait alternatingLine 1 fuel t loops tries = none := by
  induction fuel with
  | zero => intro t loops tries _ _ _ _; rfl
  | succ fuel ih =>
    intro t loops tries hl ht h1 h0
    unfold sendWait
    simp only [waitloops, maxloops, uintMod]
    rw [if_pos (by omega)]
    rcases Nat.mod_two_eq_zero_or_one t with hpar | hpar
    · have hh : lineHigh alternatingLine 1 t = false := by
        simp [lineHigh, alternatingLine, hpar]
      have hl0 := h0 hpar
      subst hl0
      simp only [hh, Bool.false_eq_true, if_false]
      rw [if_neg (by omega)]
      exact ih (t + 1) _ 0 (by norm_num) (by omega) (by intro _; rfl) (by intro h; omega)
    · have hh : lineHigh alternatingLine 1 t = true := by
        simp [lineHigh, alternatingLine, hpar]
      have ht0 := h1 hpar
      subst ht0
      simp only [hh, if_true]
      rw [if_neg (by norm_num)]
      exact ih (t + 1) 0 _ (by omega) (by norm_num) (by intro h; omega) (by intro _; rfl)

/-- C15, as the code has it.  Bounded blocking: `Read` returns at most
`maxloops + 4` samples after the start `n` of any run of `maxloops + 3`
consecutive low samples; `Send` returns by the end of any run of `waitloops`
consecutive idle samples, and by the end of any run of `maxloops + 1`
consecutive busy samples. -/
theorem C15_bounded_blocking (pind : Nat → Nat) (p : Packet) (n : Nat) :
    (IdleRun pind p.pin_in n (maxloops + 3) →
      ∀ fuel, 2 * n + (maxloops + 8) ≤ fuel →
        ∃ t r, Read fuel pind p = some (t, r) ∧ t ≤ n + (maxloops + 4)) ∧
    (IdleRun pind p.pin_in n waitloops →
      ∀ fuel, n + waitloops < fuel →
        ∃ r w t, Send fuel pind p = some (r, w, t) ∧ t ≤ n + waitloops) ∧
    (BusyRun pind p.pin_in n (maxloops + 1) →
      ∀ fuel, n + (maxloops + 1) < fuel →
        ∃ r w t, Send fuel pind p = some (r, w, t) ∧ t ≤ n + (maxloops + 1)) := by
  refine ⟨?_, ?_, ?_⟩
  · intro h fuel hf
    exact Read_returns pind p n h fuel hf
  · intro h fuel hf
    apply Send_returns_of_sendWait
    exact sendWait_returns_idle pind p.pin_in n h fuel 0 0 0 (by omega)
      (by simp [waitloops]) (by omega) (by simp [maxloops])
  · intro h fuel hf
    apply Send_returns_of_sendWait
    exact sendWait_returns_busy pind p.pin_in n h fuel 0 0 0 (by omega)
      (by simp [maxloops]) (by omega) (by simp [waitloops])

/-- Witness of C15: a fresh packet and the sample packet on the line that
always reads 0, and the sample packet on the line that always reads 1. -/
theorem C15_bounded_blocking_witness :
    (IdleRun (fun _ => 0) (Packet.new 1 2).pin_in 0 (maxloops + 3) ∧
      IdleRun (fun _ => 0) samplePacket.pin_in 0 waitloops ∧
      BusyRun (fun _ => 1) samplePacket.pin_in 0 (maxloops + 1)) ∧
    (∃ t r, Read 2008 (fun _ => 0) (Packet.new 1 2) = some (t, r) ∧
      t ≤ 0 + (maxloops + 4)) ∧
    (∃ r w t, Send 15001 (fun _ => 0) samplePacket = some (r, w, t) ∧ t ≤ 0 + waitloops) ∧
    (∃ r w t, Send 2002 (fun _ => 1) samplePacket = some (r, w, t) ∧
      t ≤ 0 + (maxloops + 1)) :=
  ⟨⟨by intro i _ _; simp [lineHigh], by intro i _ _; simp [lineHigh],
      by intro i _ _; simp [lineHigh, samplePacket]⟩,
    (C15_bounded_blocking (fun _ => 0) (Packet.new 1 2) 0).1
      (by intro i _ _; simp [lineHigh]) 2008 (by decide),
    (C15_bounded_blocking (fun _ => 0) samplePacket 0).2.1
      (by intro i _ _; simp [lineHigh]) 15001 (by decide),
    (C15_bounded_blocking (fun _ => 1) samplePacket 0).2.2
      (by intro i _ _; simp [lineHigh, samplePacket]) 2002 (by decide)⟩

/-- C15 as stated fails: on the line that reads low once and high ever after,
`Read` never leaves its pulse-measuring loop, which has no spin-count bound;
on the line that alternates low and high, `Send` never leaves its wait loop,
whose two counters reset each other.  No amount of fuel reaches a return. -/
theorem C15_counterexample :
    (∀ fuel, Read fuel stuckHighLine (Packet.new 1 2) = none) ∧
    (∀ fuel, Send fuel alternatingLine samplePacket = none) := by
  constructor
  · intro fuel
    unfold Read
    cases fuel with
    | zero => rfl
    | succ f1 =>
      have h1 : readStart stuckHighLine (Packet.new 1 2).pin_in (f1 + 1) 0 0 = some (1, 0) := by
        unfold readStart
        simp [lineHigh, stuckHighLine, Packet.new]
      rw [h1]
      simp only
      rw [if_neg (by simp [maxloops])]
      have h2 : readBits stuckHighLine (f1 + 1) 1 0 true (Packet.new 1 2) = none := by
        unfold readBits
        simp only [if_true]
        cases f1 with
        | zero => rfl
        | succ f2 =>
          have h3 : readGap stuckHighLine (Packet.new 1 2).pin_in (f2 + 1) 1 0 true
              = some (2, 0, true) := by
            unfold readGap
            simp [lineHigh, stuckHighLine, Packet.new]
          rw [h3]
          simp only [if_true]
          have h4 : readPulse stuckHighLine (Packet.new 1 2).pin_in (f2 + 1) 2 0 = none :=
            readPulse_stuck (f2 + 1) 2 0 (by norm_num)
          rw [h4]
      rw [h2]
  · intro fuel
    unfold Send
    rw [if_pos (by decide)]
    have h : sendWait alternatingLine samplePacket.pin_in fuel 0 0 0 = none :=
      sendWait_alternating fuel 0 0 0 (by norm_num) (by norm_num) (by intro h; cases h)
        (by intro _; rfl)
    rw [h]

/-! ## Frame assembly and parity extraction -/

/-- C16.  Frame assembly: after `AddBit` has taken `n <= 40` bits in arrival
order into a fresh packet, the counter is `n`, bit `i` of the header is the
`i`-th received bit for `i < min(n, 8)` and 0 otherwise, and bit `j` of the
payload is the `(8 + j)`-th received bit for `8 + j < n` and 0 otherwise. -/
theorem C16_frame_assembly (rx tx : Nat) (l : List Bool) (hl : l.length ≤ 40) :
    (addBits (Packet.new rx tx) l).counter = l.length ∧
    (∀ i, bitRead (addBits (Packet.new rx tx) l).header i
        = (decide (i < min l.length 8) && bitAt l i)) ∧
    (∀ j, bitRead (addBits (Packet.new rx tx) l).data j
        = (decide (8 + j < l.length) && bitAt l (8 + j))) := by
  obtain ⟨hc, _, _, hhb, hdb⟩ := addBits_new rx tx l hl
  refine ⟨hc, ?_, ?_⟩
  · intro i
    rw [bitRead_eq_testBit, hhb]
    by_cases h : i < l.length
    · simp [h]
    · rw [bitAt_of_le l i (by omega)]
      simp
  · intro j
    rw [bitRead_eq_testBit, hdb, Nat.add_comm 8 j]
    by_cases h : j + 8 < l.length
    · simp [h]
    · rw [bitAt_of_le l (j + 8) (by omega)]
      simp

/-- Witness of C16: the nine-bit frame. -/
theorem C16_frame_assembly_witness :
    nineBitFrame.length ≤ 40 ∧
    (addBits (Packet.new 1 2) nineBitFrame).counter = nineBitFrame.length ∧
    (∀ i, bitRead (addBits (Packet.new 1 2) nineBitFrame).header i
        = (decide (i < min nineBitFrame.length 8) && bitAt nineBitFrame i)) ∧
    (∀ j, bitRead (addBits (Packet.new 1 2) nineBitFrame).data j
        = (decide (8 + j < nineBitFrame.length) && bitAt nineBitFrame (8 + j))) :=
  ⟨by decide, C16_frame_assembly 1 2 nineBitFrame (by decide)⟩

/-- C17, as the code has it.  Parity extraction: for every sequence of `n`
received bits with `9 <= n <= 40` accumulated into a fresh packet, before
`ErrorCheck` runs the stored parity bit is the last bit received, the bit
count is `n - 9`, the header holds the first eight bits and the payload holds
the bits after them without the last one (its position is cleared and nothing
lies above it). -/
theorem C17_parity_extraction (rx tx : Nat) (l : List Bool) (h9 : 9 ≤ l.length)
    (h40 : l.length ≤ 40) :
    (readExtract (addBits (Packet.new rx tx) l)).parity = bitAt l (l.length - 1) ∧
    (readExtract (addBits (Packet.new rx tx) l)).num_bits = l.length - 9 ∧
    (∀ i, bitRead (readExtract (addBits (Packet.new rx tx) l)).header i
        = (decide (i < 8) && bitAt l i)) ∧
    (∀ j, bitRead (readExtract (addBits (Packet.new rx tx) l)).data j
        = (decide (8 + j < l.length - 1) && bitAt l (8 + j))) ∧
    decode rx tx l
      = { ErrorCheck (readExtract (addBits (Packet.new rx tx) l)) with was_sent := true } := by
  obtain ⟨hc, _, hd, hhb, hdb⟩ := addBits_new rx tx l h40
  refine ⟨?_, ?_, ?_, ?_, rfl⟩
  all_goals generalize addBits (Packet.new rx tx) l = q at hc hd hhb hdb
  · show bitRead q.data (if q.counter > 8 then q.counter - 9 else 0) = _
    rw [hc, if_pos (by omega), bitRead_eq_testBit, hdb]
    congr 1
    omega
  · show (if q.counter > 8 then q.counter - 9 else 0) = _
    rw [hc, if_pos (by omega)]
  · intro i
    show bitRead q.header i = _
    rw [bitRead_eq_testBit, hhb]
  · intro j
    show bitRead (bitWrite q.data (if q.counter > 8 then q.counter - 9 else 0) false
      % 2 ^ 32) j = _
    rw [hc, if_pos (by omega), bitRead_eq_testBit, bitWrite_testBit _ _ _ _ hd, hdb,
      Nat.add_comm 8 j]
    by_cases c1 : j + 8 < l.length - 1
    · have : ¬ (j = l.length - 9 ∧ l.length - 9 < 32) := by omega
      simp [this, c1]
    · by_cases c2 : j = l.length - 9
      · have : j = l.length - 9 ∧ l.length - 9 < 32 := by omega
        rw [if_pos this]
        simp [c1]
      · have : ¬ (j = l.length - 9 ∧ l.length - 9 < 32) := by omega
        rw [if_neg this, bitAt_of_le l (j + 8) (by omega)]
        simp

/-- Witness of C17: the nine-bit frame. -/
theorem C17_parity_extraction_witness :
    (9 ≤ nineBitFrame.length ∧ nineBitFrame.length ≤ 40) ∧
    ((readExtract (addBits (Packet.new 1 2) nineBitFrame)).parity
        = bitAt nineBitFrame (nineBitFrame.length - 1) ∧
    (readExtract (addBits (Packet.new 1 2) nineBitFrame)).num_bits
        = nineBitFrame.length - 9 ∧
    (∀ i, bitRead (readExtract (addBits (Packet.new 1 2) nineBitFrame)).header i
        = (decide (i < 8) && bitAt nineBitFrame i)) ∧
    (∀ j, bitRead (readExtract (addBits (Packet.new 1 2) nineBitFrame)).data j
        = (decide (8 + j < nineBitFrame.length - 1) && bitAt nineBitFrame (8 + j))) ∧
    decode 1 2 nineBitFrame
      = { ErrorCheck (readExtract (addBits (Packet.new 1 2) nineBitFrame)) with
          was_sent := true }) :=
  ⟨by decide, C17_parity_extraction 1 2 nineBitFrame (by decide) (by decide)⟩

set_option maxRecDepth 8000 in
/-- C17 as stated fails on the one-bit sequence `1`: the bit stays in the
header (header 1), the stored parity bit is read from the empty payload and is
0, not the bit received, and the bit count is 0.  It also fails on 41 bits,
all 1: the last bit has no place in the 32-bit payload and the stored parity
bit is 0. -/
theorem C17_counterexample :
    ([true].length = 1 ∧
      (readExtract (addBits (Packet.new 1 2) [true])).parity = false ∧
      bitAt [true] ([true].length - 1) = true ∧
      (readExtract (addBits (Packet.new 1 2) [true])).header = 1 ∧
      (readExtract (addBits (Packet.new 1 2) [true])).num_bits = 0) ∧
    (longFrame.length = 41 ∧
      (readExtract (addBits (Packet.new 1 2) longFrame)).parity = false ∧
      bitAt longFrame (longFrame.length - 1) = true) := by
  decide

/-! ## `ErrorCheck` as a shift of the received bit string -/

theorem CalcParity_oddShift_of_lt (p : Packet) (hh : p.header < 256) (hd : p.data < 2 ^ 31)
    (hn : p.num_bits ≤ 254) : CalcParity (oddShift p) = CalcParity p := by
  rw [CalcParity_frameVal _ (oddShift_header_lt p), CalcParity_frameVal p hh]
  have h1 : (oddShift p).num_bits = p.num_bits + 1 := by
    show (p.num_bits + 1) % 256 = p.num_bits + 1
    omega
  have h2 : frameVal (oddShift p) = 2 * frameVal p + (if false then 1 else 0) := by
    simp only [oddShift, frameVal, ulongMod, Nat.shiftLeft_eq, Nat.shiftRight_eq_div_pow]
    norm_num
    omega
  rw [h1, h2, ← Nat.add_assoc, xorBits_double]
  simp

/-- The six ways through `ErrorCheck`, each with the bit count and the frame
value `header + 256 * data` it leaves, on states with a byte header, a payload
below `2^29` and a bit count of at most 252. -/
theorem ErrorCheck_cases (p : Packet) (hh : p.header < 256) (hd : p.data < 2 ^ 29)
    (hn : p.num_bits ≤ 252) :
    (p.num_bits % 2 = 0 → CalcParity p = p.parity → p.header ≠ 0 →
      (ErrorCheck p).num_bits = p.num_bits ∧ frameVal (ErrorCheck p) = frameVal p) ∧
    (p.num_bits % 2 = 0 → CalcParity p ≠ p.parity →
      (ErrorCheck p).num_bits = p.num_bits + 2 ∧
      frameVal (ErrorCheck p) = 4 * frameVal p + 1) ∧
    (p.num_bits % 2 = 0 → CalcParity p = p.parity → p.header = 0 →
      (ErrorCheck p).num_bits = p.num_bits + 2 ∧
      frameVal (ErrorCheck p) = 4 * frameVal p + 3) ∧
    (p.num_bits % 2 ≠ 0 → CalcParity p ≠ p.parity →
      (ErrorCheck p).num_bits = p.num_bits + 1 ∧
      frameVal (ErrorCheck p) = 2 * frameVal p + 1) ∧
    (p.num_bits % 2 ≠ 0 → CalcParity p = p.parity → (oddShift p).header ≠ 0 →
      (ErrorCheck p).num_bits = p.num_bits + 1 ∧
      frameVal (ErrorCheck p) = 2 * frameVal p) ∧
    (p.num_bits % 2 ≠ 0 → CalcParity p = p.parity → (oddShift p).header = 0 →
      (ErrorCheck p).num_bits = p.num_bits + 3 ∧
      frameVal (ErrorCheck p) = 8 * frameVal p + 3) := by
  have hd2 : p.data < 536870912 := by simpa using hd
  refine ⟨?_, ?_, ?_, ?_, ?_, ?_⟩
  · intro he hm hz
    rw [ErrorCheck_accepts p ⟨he, hm, hz⟩]
    exact ⟨rfl, rfl⟩
  · intro he hm
    have h1 : (CalcParity p != p.parity) = true := by simp [hm]
    rw [ErrorCheck_eq, if_pos he]
    unfold evenCheck
    rw [if_pos h1]
    constructor
    · show (p.num_bits + 2) % 256 = p.num_bits + 2
      omega
    · simp only [frameVal, ulongMod, Nat.shiftLeft_eq, Nat.shiftRight_eq_div_pow]
      norm_num
      omega
  · intro he hm hz
    have h1 : ¬ ((CalcParity p != p.parity) = true) := by simp [hm]
    rw [ErrorCheck_eq, if_pos he]
    unfold evenCheck
    rw [if_neg h1, if_pos hz]
    constructor
    · show (p.num_bits + 2) % 256 = p.num_bits + 2
      omega
    · simp only [frameVal, ulongMod, Nat.shiftLeft_eq, Nat.shiftRight_eq_div_pow]
      norm_num
      omega
  · intro he hm
    have h1 : (CalcParity p != p.parity) = true := by simp [hm]
    rw [ErrorCheck_eq, if_neg he, if_pos h1]
    constructor
    · show (p.num_bits + 1) % 256 = p.num_bits + 1
      omega
    · simp only [oddShift, frameVal, ulongMod, Nat.shiftLeft_eq, Nat.shiftRight_eq_div_pow]
      norm_num
      omega
  · intro he hm hz
    have h1 : ¬ ((CalcParity p != p.parity) = true) := by simp [hm]
    have h2 : CalcParity (oddShift p) = (oddShift p).parity := by
      rw [CalcParity_oddShift_of_lt p hh (by omega) (by omega), hm]
      rfl
    have h3 : ¬ ((CalcParity (oddShift p) != (oddShift p).parity) = true) := by simp [h2]
    rw [ErrorCheck_eq, if_neg he, if_neg h1]
    unfold evenCheck
    rw [if_neg h3, if_neg hz]
    constructor
    · show (p.num_bits + 1) % 256 = p.num_bits + 1
      omega
    · simp only [oddShift, frameVal, ulongMod, Nat.shiftLeft_eq, Nat.shiftRight_eq_div_pow]
      norm_num
      omega
  · intro he hm hz
    have h1 : ¬ ((CalcParity p != p.parity) = true) := by simp [hm]
    have h2 : CalcParity (oddShift p) = (oddShift p).parity := by
      rw [CalcParity_oddShift_of_lt p hh (by omega) (by omega), hm]
      rfl
    have h3 : ¬ ((CalcParity (oddShift p) != (oddShift p).parity) = true) := by simp [h2]
    rw [ErrorCheck_eq, if_neg he, if_neg h1]
    unfold evenCheck
    rw [if_neg h3, if_pos hz]
    have hz2 : (p.header <<< 1) % 256 = 0 := hz
    constructor
    · show ((p.num_bits + 1) % 256 + 2) % 256 = p.num_bits + 3
      omega
    · simp only [oddShift, frameVal, ulongMod, Nat.shiftLeft_eq, Nat.shiftRight_eq_div_pow]
        at hz2 ⊢
      norm_num at hz2 ⊢
      omega

/-- C18.  `ErrorCheck` never loses a received bit: for every packet state
with a byte header, payload below `2^29` and bit count at most 252, with
`U = header + 256 * payload` before the call and `U'` after it, the bit count
grows by some `k` in 0..3 and `U' = U * 2^k + f` with `f < 2^k`: `U' = U` when
the frame is accepted, `4U + 1` on the even parity mismatch, `4U + 3` on the
all-zero-header path, and `2U + 1`, `2U` or `8U + 3` on the odd path. -/
theorem C18_no_bit_lost (p : Packet) (hh : p.header < 256) (hd : p.data < 2 ^ 29)
    (hn : p.num_bits ≤ 252) :
    (∃ k f, k ≤ 3 ∧ f < 2 ^ k ∧ (ErrorCheck p).num_bits = p.num_bits + k ∧
      frameVal (ErrorCheck p) = frameVal p * 2 ^ k + f) ∧
    (((ErrorCheck p).num_bits = p.num_bits ∧ frameVal (ErrorCheck p) = frameVal p) ∨
     ((ErrorCheck p).num_bits = p.num_bits + 2 ∧
        frameVal (ErrorCheck p) = 4 * frameVal p + 1) ∨
     ((ErrorCheck p).num_bits = p.num_bits + 2 ∧
        frameVal (ErrorCheck p) = 4 * frameVal p + 3) ∨
     ((ErrorCheck p).num_bits = p.num_bits + 1 ∧
        frameVal (ErrorCheck p) = 2 * frameVal p + 1) ∨
     ((ErrorCheck p).num_bits = p.num_bits + 1 ∧ frameVal (ErrorCheck p) = 2 * frameVal p) ∨
     ((ErrorCheck p).num_bits = p.num_bits + 3 ∧
        frameVal (ErrorCheck p) = 8 * frameVal p + 3)) ∧
    (p.num_bits % 2 = 0 → CalcParity p = p.parity → p.header ≠ 0 →
      frameVal (ErrorCheck p) = frameVal p) ∧
    (p.num_bits % 2 = 0 → CalcParity p ≠ p.parity →
      frameVal (ErrorCheck p) = 4 * frameVal p + 1) ∧
    (p.num_bits % 2 = 0 → CalcParity p = p.parity → p.header = 0 →
      frameVal (ErrorCheck p) = 4 * frameVal p + 3) := by
  obtain ⟨c1, c2, c3, c4, c5, c6⟩ := ErrorCheck_cases p hh hd hn
  have hcases : ((ErrorCheck p).num_bits = p.num_bits ∧ frameVal (ErrorCheck p) = frameVal p) ∨
     ((ErrorCheck p).num_bits = p.num_bits + 2 ∧
        frameVal (ErrorCheck p) = 4 * frameVal p + 1) ∨
     ((ErrorCheck p).num_bits = p.num_bits + 2 ∧
        frameVal (ErrorCheck p) = 4 * frameVal p + 3) ∨
     ((ErrorCheck p).num_bits = p.num_bits + 1 ∧
        frameVal (ErrorCheck p) = 2 * frameVal p + 1) ∨
     ((ErrorCheck p).num_bits = p.num_bits + 1 ∧ frameVal (ErrorCheck p) = 2 * frameVal p) ∨
     ((ErrorCheck p).num_bits = p.num_bits + 3 ∧
        frameVal (ErrorCheck p) = 8 * frameVal p + 3) := by
    by_cases he : p.num_bits % 2 = 0
    · by_cases hm : CalcParity p = p.parity
      · by_cases hz : p.header = 0
        · exact Or.inr (Or.inr (Or.inl (c3 he hm hz)))
        · exact Or.inl (c1 he hm hz)
      · exact Or.inr (Or.inl (c2 he hm))
    · by_cases hm : CalcParity p = p.parity
      · by_cases hz : (oddShift p).header = 0
        · exact Or.inr (Or.inr (Or.inr (Or.inr (Or.inr (c6 he hm hz)))))
        · exact Or.inr (Or.inr (Or.inr (Or.inr (Or.inl (c5 he hm hz)))))
      · exact Or.inr (Or.inr (Or.inr (Or.inl (c4 he hm))))
  refine ⟨?_, hcases, fun a b c => (c1 a b c).2, fun a b => (c2 a b).2,
    fun a b c => (c3 a b c).2⟩
  rcases hcases with h | h | h | h | h | h
  · exact ⟨0, 0, by omega, by norm_num, by omega, by omega⟩
  · exact ⟨2, 1, by omega, by norm_num, by omega, by omega⟩
  · exact ⟨2, 3, by omega, by norm_num, by omega, by omega⟩
  · exact ⟨1, 1, by omega, by norm_num, by omega, by omega⟩
  · exact ⟨1, 0, by omega, by norm_num, by omega, by omega⟩
  · exact ⟨3, 3, by omega, by norm_num, by omega, by omega⟩

/-- Witness of C18: the state with header 10000001 and a parity mismatch. -/
theorem C18_no_bit_lost_witness :
    (mismatchPacket.header < 256 ∧ mismatchPacket.data < 2 ^ 29 ∧
      mismatchPacket.num_bits ≤ 252 ∧ mismatchPacket.num_bits % 2 = 0 ∧
      CalcParity mismatchPacket ≠ mismatchPacket.parity) ∧
    frameVal (ErrorCheck mismatchPacket) = 4 * frameVal mismatchPacket + 1 :=
  ⟨by decide,
    (C18_no_bit_lost mismatchPacket (by decide) (by decide) (by decide)).2.2.2.1 (by decide)
      (by decide)⟩

/-- C19.  In the odd branch the parity computed before the one-bit shift is
the parity after it: for every state with a byte header and an odd bit count
of at most 29, `CalcParity()` after the shift equals `CalcParity()` before it.
Hence, when the recursive call is made, the stored parity bit equals the
computed one there, the parity-mismatch correction is not taken, and the call
either accepts the shifted frame or takes the all-zero-header correction: the
bit count grows by 1 or by 3 in all. -/
theorem C19_odd_branch_parity (p : Packet) (hh : p.header < 256)
    (ho : p.num_bits % 2 = 1) (hn : p.num_bits ≤ 29) :
    CalcParity (oddShift p) = CalcParity p ∧
    (CalcParity p = p.parity →
      CalcParity (oddShift p) = (oddShift p).parity ∧
      ErrorCheck p = { ErrorCheck (oddShift p) with incomplete := true } ∧
      ((oddShift p).header ≠ 0 → ErrorCheck (oddShift p) = oddShift p) ∧
      ((oddShift p).header = 0 →
        ErrorCheck (oddShift p)
          = { oddShift p with
                data := (((oddShift p).data <<< 2) + ((oddShift p).header >>> 6)) % ulongMod,
                header := (((oddShift p).header <<< 2) + 3) % 256,
                num_bits := ((oddShift p).num_bits + 2) % 256,
                incomplete := true })) ∧
    ((ErrorCheck p).num_bits = p.num_bits + 1 ∨ (ErrorCheck p).num_bits = p.num_bits + 3) := by
  have hs := CalcParity_oddShift p hh (by omega)
  have he : ¬ p.num_bits % 2 = 0 := by omega
  have he2 : (oddShift p).num_bits % 2 = 0 := by
    show (p.num_bits + 1) % 256 % 2 = 0
    omega
  have hrec : CalcParity p = p.parity →
      CalcParity (oddShift p) = (oddShift p).parity ∧
      ErrorCheck p = { ErrorCheck (oddShift p) with incomplete := true } ∧
      ((oddShift p).header ≠ 0 → ErrorCheck (oddShift p) = oddShift p) ∧
      ((oddShift p).header = 0 →
        ErrorCheck (oddShift p)
          = { oddShift p with
                data := (((oddShift p).data <<< 2) + ((oddShift p).header >>> 6)) % ulongMod,
                header := (((oddShift p).header <<< 2) + 3) % 256,
                num_bits := ((oddShift p).num_bits + 2) % 256,
                incomplete := true }) := by
    intro hm
    have h1 : ¬ ((CalcParity p != p.parity) = true) := by simp [hm]
    have h2 : CalcParity (oddShift p) = (oddShift p).parity := by
      rw [hs, hm]; rfl
    have h3 : ¬ ((CalcParity (oddShift p) != (oddShift p).parity) = true) := by simp [h2]
    refine ⟨h2, ?_, ?_, ?_⟩
    · rw [ErrorCheck_eq p, if_neg he, if_neg h1, ErrorCheck_eq (oddShift p), if_pos he2]
    · intro hz
      exact ErrorCheck_accepts _ ⟨he2, h2, hz⟩
    · intro hz
      rw [ErrorCheck_eq (oddShift p), if_pos he2]
      unfold evenCheck
      rw [if_neg h3, if_pos hz]
  refine ⟨hs, hrec, ?_⟩
  by_cases hm : CalcParity p = p.parity
  · obtain ⟨_, e, ha, hz⟩ := hrec hm
    rw [e]
    by_cases hzero : (oddShift p).header = 0
    · right
      rw [hz hzero]
      show ((p.num_bits + 1) % 256 + 2) % 256 = p.num_bits + 3
      omega
    · left
      rw [ha hzero]
      show (p.num_bits + 1) % 256 = p.num_bits + 1
      omega
  · left
    have h1 : (CalcParity p != p.parity) = true := by simp [hm]
    rw [ErrorCheck_eq p, if_neg he, if_pos h1]
    show (p.num_bits + 1) % 256 = p.num_bits + 1
    omega

/-- Witness of C19: header 00000101, payload 011 on three bits, parity 0. -/
theorem C19_odd_branch_parity_witness :
    (oddPacket.header < 256 ∧ oddPacket.num_bits % 2 = 1 ∧ oddPacket.num_bits ≤ 29 ∧
      CalcParity oddPacket = oddPacket.parity) ∧
    CalcParity (oddShift oddPacket) = CalcParity oddPacket ∧
    CalcParity (oddShift oddPacket) = (oddShift oddPacket).parity ∧
    ((ErrorCheck oddPacket).num_bits = oddPacket.num_bits + 1 ∨
      (ErrorCheck oddPacket).num_bits = oddPacket.num_bits + 3) :=
  ⟨by decide,
    (C19_odd_branch_parity oddPacket (by decide) (by decide) (by decide)).1,
    ((C19_odd_branch_parity oddPacket (by decide) (by decide) (by decide)).2.1
      (by decide)).1,
    (C19_odd_branch_parity oddPacket (by decide) (by decide) (by decide)).2.2⟩

/-! ## `BitRange` -/

theorem clearBit_testBit (v i j : Nat) (hv : v < 256) (hi : i < 8) :
    ((v &&& (65535 - (1 <<< i) % 65536)) % 256).testBit j
      = (v.testBit j && !decide (j = i)) := by
  have e1 : (1 <<< i) % 65536 = 2 ^ i := by
    rw [Nat.one_shiftLeft]
    apply Nat.mod_eq_of_lt
    calc 2 ^ i ≤ 2 ^ 8 := Nat.pow_le_pow_right (by norm_num) (by omega)
      _ < 65536 := by norm_num
  have e2 : 65535 - 2 ^ i = 2 ^ 16 - (2 ^ i + 1) := by
    generalize 2 ^ i = x
    norm_num
    omega
  have hlt : 2 ^ i < 2 ^ 16 := Nat.pow_lt_pow_right (by norm_num) (by omega)
  have e3 : (256 : Nat) = 2 ^ 8 := by norm_num
  rw [e1, e2, e3, Nat.testBit_mod_two_pow, Nat.testBit_and,
    Nat.testBit_two_pow_sub_succ hlt, Nat.testBit_two_pow]
  by_cases h8 : j < 8
  · have h16 : j < 16 := by omega
    by_cases hji : j = i
    · subst hji; simp
    · have : ¬ i = j := fun h => hji h.symm
      simp [h8, h16, hji, this]
  · have hvj : v.testBit j = false :=
      testBit_of_lt_of_le (n := 8) (by simpa using hv) (by omega)
    simp [h8, hvj]

theorem clearBit_lt (v i : Nat) : (v &&& (65535 - (1 <<< i) % 65536)) % 256 < 256 :=
  Nat.mod_lt _ (by norm_num)

theorem clearLoop_testBit (k : Nat) :
    ∀ s v j, s + k ≤ 8 → v < 256 →
      ((List.range' s k).foldl
          (fun v i => (v &&& (65535 - (1 <<< i) % 65536)) % 256) v).testBit j
        = (v.testBit j && !(decide (s ≤ j) && decide (j < s + k))) := by
  induction k with
  | zero =>
    intro s v j _ _
    simp
    omega
  | succ k ih =>
    intro s v j hs hv
    rw [List.range'_succ, List.foldl_cons, ih (s + 1) _ j (by omega) (clearBit_lt v s),
      clearBit_testBit v s j hv (by omega)]
    by_cases h1 : j = s
    · subst h1; simp
    · by_cases h2 : s ≤ j
      · have h3 : s + 1 ≤ j := by omega
        have e : (j < s + 1 + k) = (j < s + (k + 1)) := by
          apply propext; constructor <;> intro h <;> omega
        simp [h1, h2, h3, e]
      · have h3 : ¬ s + 1 ≤ j := by omega
        simp [h1, h2, h3]

/-- C20.  `BitRange` extracts a bit field: for every payload and every
`first <= last` with `last - first <= 7` (so also for `first <= 31`),
`BitRange(first, last)` equals `(payload >> first) mod 2^(last - first + 1)`;
in particular `Byte(i)` equals `BitRange(8i, 8i + 7)` for `i` in 0, 1, 2. -/
theorem C20_bit_range (p : Packet) (first last : Nat) (hfl : first ≤ last)
    (hw : last - first ≤ 7) :
    BitRange p first last = (p.data >>> first) % 2 ^ (last - first + 1) ∧
    Byte p 0 = BitRange p 0 7 ∧ Byte p 1 = BitRange p 8 15 ∧ Byte p 2 = BitRange p 16 23 := by
  have hbyte : ∀ a, BitRange p a (a + 7) = ((p.data >>> a) &&& 255) % 256 := by
    intro a
    unfold BitRange
    have e : (a + 7 + 256 - a + 1) % 256 = 8 := by omega
    simp only [e]
    rw [and_255]
    simp
  refine ⟨?_, ?_, ?_, ?_⟩
  · unfold BitRange
    have e : (last + 256 - first + 1) % 256 = last - first + 1 := by omega
    simp only [e]
    generalize hwd : last - first + 1 = w
    have hw1 : w ≤ 8 := by omega
    have hv : (p.data >>> first) % 256 < 256 := Nat.mod_lt _ (by norm_num)
    apply Nat.eq_of_testBit_eq
    intro j
    rw [clearLoop_testBit (8 - w) w _ j (by omega) hv, Nat.testBit_mod_two_pow]
    have e8 : (256 : Nat) = 2 ^ 8 := by norm_num
    rw [e8, Nat.testBit_mod_two_pow]
    by_cases h1 : j < w
    · have h2 : j < 8 := by omega
      have h3 : ¬ w ≤ j := by omega
      simp [h1, h2, h3]
    · by_cases h2 : j < 8
      · have h3 : w ≤ j := by omega
        have h4 : j < w + (8 - w) := by omega
        simp [h1, h2, h3, h4]
      · simp [h1, h2]
  · have := hbyte 0
    simpa [Byte] using this.symm
  · have := hbyte 8
    simpa [Byte] using this.symm
  · have := hbyte 16
    simpa [Byte] using this.symm

/-- Witness of C20: bits 1 to 4 of the payload 10101010 are 0101. -/
theorem C20_bit_range_witness :
    ((1 : Nat) ≤ 4 ∧ 4 - 1 ≤ 7) ∧
    (BitRange samplePacket 1 4 = (samplePacket.data >>> 1) % 2 ^ (4 - 1 + 1) ∧
    Byte samplePacket 0 = BitRange samplePacket 0 7 ∧
    Byte samplePacket 1 = BitRange samplePacket 8 15 ∧
    Byte samplePacket 2 = BitRange samplePacket 16 23) :=
  ⟨by decide, C20_bit_range samplePacket 1 4 (by decide) (by decide)⟩

end EC
